import Mathlib

/-!
Verification development for the chunk-generation pipeline of the arm-mcp
repository (embedding-generation/generate-chunks.py).

Text is modelled as a list of characters (`Str`).  The Python string
primitives used by the source (`str.split()` with no argument, `str.strip()`,
`str.split(sep)`, `str.lower()`, `in`, prefix tests and the two regular
expressions of `obtainTextSnippets__Markdown`) are given explicit executable
definitions with the same semantics, and the chunking algorithm, the ledger
update and the deduplication gate are translated function by function.
-/

/-- Texts are lists of characters. -/
abbrev Str := List Char

/-- Python whitespace, the character class used by `str.split()` and
`str.strip()` with no arguments: space, tab, newline, carriage return,
vertical tab and form feed. -/
def pyWS (c : Char) : Bool :=
  c = ' ' || c = '\t' || c = '\n' || c = '\r' || c = '\x0b' || c = '\x0c'

/-- Accumulating scanner behind `wordsOf`; `acc` holds the characters of the
word currently being read, in reverse. -/
def wordsGo (acc : Str) : Str → List Str
  | [] => if acc = [] then [] else [acc.reverse]
  | c :: s =>
    if pyWS c then
      if acc = [] then wordsGo [] s else acc.reverse :: wordsGo [] s
    else wordsGo (c :: acc) s

/-- Python `text.split()` with no argument: the list of maximal runs of
non-whitespace characters. -/
def wordsOf (s : Str) : List Str :=
  wordsGo [] s

/-- The helper `word_count` of `obtainTextSnippets__Markdown`:
`len(text.split())`. -/
def wordCount (s : Str) : Nat :=
  (wordsOf s).length

/-- Python `s.strip()` with no argument: remove leading and trailing
whitespace. -/
def pyStrip (s : Str) : Str :=
  ((s.dropWhile pyWS).reverse.dropWhile pyWS).reverse

/-- Python `s.lower()`, restricted to its ASCII action (all characters
appearing in this development are ASCII). -/
def pyLower (s : Str) : Str :=
  s.map Char.toLower

/-- Whether `p` is a leading segment of `s` (Python `s.startswith(p)`,
also the anchored test of `re.match`). -/
def leadsWith : Str → Str → Bool
  | [], _ => true
  | _ :: _, [] => false
  | p :: ps, c :: cs => p = c && leadsWith ps cs

/-- Python `pat in s`: substring occurrence test. -/
def containsSub (pat : Str) : Str → Bool
  | [] => leadsWith pat []
  | c :: rest => leadsWith pat (c :: rest) || containsSub pat rest

/-- Prepend a character to the first piece of a piece list (helper for the
structural splitting scanners). -/
def consHead (c : Char) : List Str → List Str
  | [] => [[c]]
  | p :: ps => (c :: p) :: ps

/-- Split a text at every newline character, keeping empty lines
(Python `s.split('\n')`). -/
def splitNl : Str → List Str
  | [] => [[]]
  | c :: rest => if c = '\n' then [] :: splitNl rest else consHead c (splitNl rest)

/-- Python `s.split(sep)` for a two-character separator `[x, y]`:
left-to-right, non-overlapping occurrences, keeping empty pieces.  The
source uses it with `'\n\n'` (paragraph boundaries) and, for counting ledger
entries, with `', '`. -/
def splitTwo (x y : Char) : Str → List Str
  | [] => [[]]
  | [c] => [[c]]
  | c :: d :: rest =>
    if c = x ∧ d = y then [] :: splitTwo x y rest
    else consHead c (splitTwo x y (d :: rest))

/-- Newline, as a one-character text. -/
def nl : Str := ['\n']

/-- One line matched by the pattern `rf'(?<=\n)({heading_level} .+)'` of
`split_by_heading`: the line starts with the heading marker and a space and
has at least one further character (lines contain no newline, so `.+` means
a non-empty remainder of the line). -/
def isHeadingLine (lvl : Str) (l : Str) : Bool :=
  leadsWith (lvl ++ [' ']) l && decide (lvl.length + 1 < l.length)

/-- Regrouping core of `split_by_heading`: walk the lines after the first,
cutting before every heading line.  `cur` holds the lines of the piece being
accumulated, in reverse.  The newline preceding a heading line stays with
the preceding piece, the heading line forms its own piece (the captured
group of the regex), and the following piece starts with the newline that
follows the heading line (it is the empty text when the heading line is
last, matching the trailing empty piece produced by `re.split`). -/
def sbhL (lvl : Str) (cur : List Str) : List Str → List Str
  | [] => [List.intercalate nl cur.reverse]
  | l :: ls =>
    if isHeadingLine lvl l then
      (List.intercalate nl cur.reverse ++ ['\n']) :: l :: sbhL lvl [[]] ls
    else sbhL lvl (l :: cur) ls

/-- The helper `split_by_heading` of `obtainTextSnippets__Markdown`:
`re.compile(rf'(?<=\n)({heading_level} .+)', re.IGNORECASE).split(content)`.
Because the pattern has one capturing group, the matched heading lines are
kept in the result between the surrounding pieces; the look-behind prevents
a match on the first line. -/
def sbh (lvl : Str) (content : Str) : List Str :=
  match splitNl content with
  | [] => [content]
  | l0 :: ls => sbhL lvl [l0] ls

/-- The heading test of `create_chunks`:
`re.match(rf'^{heading_level} ', piece.strip())`. -/
def isHeadPiece (lvl : Str) (p : Str) : Bool :=
  leadsWith (lvl ++ [' ']) (pyStrip p)

/-- Python `chunks[-1] += text` on a non-empty list (`[]` is unreachable at
the call site, where the list was tested non-empty). -/
def appendToLast (l : List Str) (x : Str) : List Str :=
  match l with
  | [] => []
  | [a] => [a ++ x]
  | a :: b :: rest => a :: appendToLast (b :: rest) x

/-- Final-chunk handling of `create_chunks`: a non-empty stripped remainder
is merged into the last chunk when its running count is below
`min_final_words` and some chunk was already flushed, and otherwise emitted
as its own chunk. -/
def ccFinal (minF : Nat) (chunks : List Str) (cur : Str) (cnt : Nat) : List Str :=
  if pyStrip cur = [] then chunks
  else if cnt < minF ∧ chunks ≠ [] then appendToLast chunks ('\n' :: pyStrip cur)
  else chunks ++ [pyStrip cur]

/-- Main loop of `create_chunks`.  For each piece: first the heading rule
(flush when the stripped piece starts with the heading marker and the running
count has reached `min_words`), then the budget rule (flush and restart from
the stripped piece when appending would exceed `max_words` while the count
has reached `min_words`), otherwise append the piece and a newline. -/
def ccAux (lvl : Str) (minW maxW minF : Nat) :
    List Str → List Str → Str → Nat → List Str
  | [], chunks, cur, cnt => ccFinal minF chunks cur cnt
  | p :: ps, chunks, cur, cnt =>
    let pwc := wordCount p
    let st1 : List Str × Str × Nat :=
      if isHeadPiece lvl p = true ∧ minW ≤ cnt then (chunks ++ [pyStrip cur], [], 0)
      else (chunks, cur, cnt)
    if maxW < st1.2.2 + pwc ∧ minW ≤ st1.2.2 then
      ccAux lvl minW maxW minF ps (st1.1 ++ [pyStrip st1.2.1]) (pyStrip p) pwc
    else
      ccAux lvl minW maxW minF ps st1.1 (st1.2.1 ++ p ++ ['\n']) (st1.2.2 + pwc)

/-- The helper `create_chunks` of `obtainTextSnippets__Markdown`, with the
three word-count thresholds of the enclosing function passed explicitly. -/
def createChunks (pieces : List Str) (lvl : Str) (minW maxW minF : Nat) : List Str :=
  ccAux lvl minW maxW minF pieces [] [] 0

/-- The level-2 heading marker. -/
def h2 : Str := ['#', '#']

/-- The level-3 heading marker. -/
def h3 : Str := ['#', '#', '#']

/-- The level-4 heading marker. -/
def h4 : Str := ['#', '#', '#', '#']

/-- `obtainTextSnippets__Markdown`: split by level-2 headings and group;
chunks still over `max_words` are re-split at level-3, then level-4, and
finally at blank-line paragraph boundaries.  Note that the paragraph-level
call `create_chunks(paragraphs)` uses the default heading marker `'##'`. -/
def obtainTextSnippets (content : Str) (minW : Nat := 300) (maxW : Nat := 500)
    (minF : Nat := 200) : List Str :=
  let chunks := createChunks (sbh h2 content) h2 minW maxW minF
  chunks.flatMap (fun chunk =>
    if maxW < wordCount chunk then
      (createChunks (sbh h3 chunk) h3 minW maxW minF).flatMap (fun sub =>
        if maxW < wordCount sub then
          (createChunks (sbh h4 sub) h4 minW maxW minF).flatMap (fun ss =>
            if maxW < wordCount ss then
              createChunks (splitTwo '\n' '\n' ss) h2 minW maxW minF
            else [ss])
        else [sub])
    else [chunk])

/-- Modelled from the spec: the grouping loop of §4.1 with the
heading-triggered flush rule removed, the reading of "treating each
paragraph as a fragment with no heading semantics, so the heading-triggered
flush rule never fires at this level".  It is `ccAux` without the first
flush rule. -/
def ccNoHeadAux (minW maxW minF : Nat) : List Str → List Str → Str → Nat → List Str
  | [], chunks, cur, cnt => ccFinal minF chunks cur cnt
  | p :: ps, chunks, cur, cnt =>
    let pwc := wordCount p
    if maxW < cnt + pwc ∧ minW ≤ cnt then
      ccNoHeadAux minW maxW minF ps (chunks ++ [pyStrip cur]) (pyStrip p) pwc
    else ccNoHeadAux minW maxW minF ps chunks (cur ++ p ++ ['\n']) (cnt + pwc)

/-- Modelled from the spec: grouping with no heading semantics (see
`ccNoHeadAux`). -/
def createChunksNoHead (pieces : List Str) (minW maxW minF : Nat) : List Str :=
  ccNoHeadAux minW maxW minF pieces [] [] 0

/-- Modelled from the spec: the pipeline of `obtainTextSnippets__Markdown`
as §4.1 describes it, identical to `obtainTextSnippets` except that the
paragraph-level fallback groups with no heading semantics. -/
def obtainTextSnippetsNoHeadPara (content : Str) (minW : Nat := 300)
    (maxW : Nat := 500) (minF : Nat := 200) : List Str :=
  let chunks := createChunks (sbh h2 content) h2 minW maxW minF
  chunks.flatMap (fun chunk =>
    if maxW < wordCount chunk then
      (createChunks (sbh h3 chunk) h3 minW maxW minF).flatMap (fun sub =>
        if maxW < wordCount sub then
          (createChunks (sbh h4 sub) h4 minW maxW minF).flatMap (fun ss =>
            if maxW < wordCount ss then
              createChunksNoHead (splitTwo '\n' '\n' ss) minW maxW minF
            else [ss])
        else [sub])
    else [chunk])

/-- One row of the ledger table `info/chunk_details.csv`: columns
`[URL, Date, Number of Words, Number of Chunks, Chunk IDs]`.  The two
numeric columns are stored in the file as decimal strings and read back with
`int(...)`; they are modelled as natural numbers. -/
structure LedgerRow where
  url : Str
  date : Str
  words : Nat
  count : Nat
  ids : Str
deriving DecidableEq

/-- The helper `addNewRow` of `chunkSaveAndTrack`:
`[url, current_date, chunk_words, '1', chunk_id]`. -/
def addNewRow (url : Str) (currentDate : Str) (chunkWords : Nat) (chunkId : Str) :
    LedgerRow :=
  ⟨url, currentDate, chunkWords, 1, chunkId⟩

/-- The helper `addToExistingRow` of `chunkSaveAndTrack`: same url and date,
words increased by the chunk's word count, chunk count increased by one, and
`", " + chunk_id` appended to the id column. -/
def addToExistingRow (row : LedgerRow) (chunkWords : Nat) (chunkId : Str) :
    LedgerRow :=
  ⟨row.url, row.date, row.words + chunkWords, row.count + 1,
    row.ids ++ ',' :: ' ' :: chunkId⟩

/-- The row loop of `recordChunk` inside `chunkSaveAndTrack`: every row
whose key column equals the url is replaced via `addToExistingRow`, every
other row is kept, and when no row matched a fresh row is appended at the
very end. -/
def recordRows (url : Str) (chunkWords : Nat) (chunkId : Str) (currentDate : Str) :
    List LedgerRow → Bool → List LedgerRow
  | [], found => if found then [] else [addNewRow url currentDate chunkWords chunkId]
  | r :: rs, found =>
    if r.url = url then
      addToExistingRow r chunkWords chunkId
        :: recordRows url chunkWords chunkId currentDate rs true
    else r :: recordRows url chunkWords chunkId currentDate rs found

/-- The in-memory ledger table: the header row followed by the data rows
(`new_rows` in `recordChunk`, with `headers` kept first). -/
structure LedgerTable where
  header : List Str
  rows : List LedgerRow
deriving DecidableEq

/-- `recordChunk` of `chunkSaveAndTrack` as a function on the table: the
whole table is rewritten, header first.  The caller supplies the chunk's
word count (`len(chunk.content.split())`), the chunk id
(`'chunk_' + chunk.uuid`) and the current date. -/
def recordChunk (t : LedgerTable) (url : Str) (chunkWords : Nat) (chunkId : Str)
    (currentDate : Str) : LedgerTable :=
  ⟨t.header, recordRows url chunkWords chunkId currentDate t.rows false⟩

/-- The number of comma-separated entries of an id column, splitting at the
`", "` separator used by `addToExistingRow`. -/
def countIds (ids : Str) : Nat :=
  (splitTwo ',' ' ' ids).length

/-- The substring `'cross-platform'` tested by `processLearningPath`. -/
def cpToken : Str :=
  ['c', 'r', 'o', 's', 's', '-', 'p', 'l', 'a', 't', 'f', 'o', 'r', 'm']

/-- The cross-platform test of `processLearningPath`:
`'cross-platform' in url`. -/
def isCrossPlatform (url : Str) : Bool :=
  containsSub cpToken url

/-- The deduplication gate of `processLearningPath` (type `'Learning Path'`)
together with the processing it guards: a cross-platform url already in the
list is skipped (the function returns before any chunk is produced or any
ledger update happens), a new cross-platform url is appended to the list and
processed, and a non-cross-platform url is processed with no state change.
`emit` abstracts the chunk production of `chunkizeLearningPath`. -/
def processLearningPathGate {α : Type} (seen : List Str) (url : Str)
    (emit : Str → List α) : List Str × List α :=
  if isCrossPlatform url = true then
    if url ∈ seen then (seen, [])
    else (seen ++ [url], emit url)
  else (seen, emit url)

/-- `Chunk.formatKeywords`: `', '.join(keywords).lower().strip()`. -/
def formatKeywords (keywords : List Str) : Str :=
  pyStrip (pyLower (List.intercalate [',', ' '] keywords))

/-- `Merges out inp` states that the word list `out` is obtained from the
word list `inp` by concatenating zero or more groups of consecutive words:
each word of `out` is the concatenation of one or more consecutive words of
`inp`, in order, and every word of `inp` is used exactly once. -/
inductive Merges : List Str → List Str → Prop
  | nil : Merges [] []
  | grp (g : List Str) (hg : g ≠ []) {xs ys : List Str} :
      Merges xs ys → Merges (g.flatten :: xs) (g ++ ys)

/-- A text of `n` words, each the single letter a, separated by spaces. -/
def repWords (n : Nat) : Str :=
  (List.replicate n ['a', ' ']).flatten

/-- First level-2 section of the concrete scenario of C6: 350 words
(two of them on the heading line). -/
def secA : Str := ['#', '#', ' ', 'A', '\n'] ++ repWords 348 ++ ['\n']

/-- Second level-2 section of the concrete scenario of C6: 180 words. -/
def secB : Str := ['#', '#', ' ', 'B', '\n'] ++ repWords 178 ++ ['\n']

/-- Third level-2 section of the concrete scenario of C6: 120 words. -/
def secC : Str := ['#', '#', ' ', 'C', '\n'] ++ repWords 118

/-- The concrete input document of C6: three level-2 sections of 350, 180
and 120 words. -/
def docC6 : Str := secA ++ secB ++ secC

/-- First level-2 section of the C1 counterexample document: 350 words. -/
def sec1C1 : Str := repWords 350

/-- Second level-2 section of the C1 counterexample document: 250 words
(two of them on the heading line). -/
def sec2C1 : Str := ['#', '#', ' ', 'B', '\n'] ++ repWords 248

/-- A document with two level-2 sections of 350 and 250 words. -/
def docC1 : Str := sec1C1 ++ ['\n'] ++ sec2C1

/-- A document on which the budget rule restarts a chunk from a stripped
piece directly before a heading line, merging the last word of the piece
with the heading marker: 299 words, a heading, 250 words, a heading,
100 words. -/
def docC2 : Str :=
  repWords 299 ++ ['\n', '#', '#', ' ', 'B', '\n'] ++ repWords 250
    ++ ['\n', '#', '#', ' ', 'C', '\n'] ++ repWords 100

/-- A document reaching the paragraph fallback whose middle paragraph is an
indented level-2 heading line: 350 words, a blank line, the paragraph
consisting of the indented heading, a blank line, 209 words.  The indented
heading is not matched by `split_by_heading` (the look-behind requires the
marker directly after the newline) but its stripped paragraph does match the
heading test of `create_chunks`. -/
def docC3 : Str :=
  repWords 350 ++ ['\n', '\n', ' ', '#', '#', ' ', 'h', '\n', '\n'] ++ repWords 209

/-- A document with no heading markers, made of two 400-word paragraphs. -/
def docC4 : Str := repWords 400 ++ ['\n', '\n'] ++ repWords 400

/-- The keyword ARM, upper case. -/
def kwARM : Str := ['A', 'R', 'M']

/-- The keyword arm, lower case. -/
def kwarm : Str := ['a', 'r', 'm']

/-- The keyword Install. -/
def kwInstall : Str := ['I', 'n', 's', 't', 'a', 'l', 'l']

/-- A concrete learning-path url containing the substring cross-platform. -/
def urlCP : Str := ['u', '/'] ++ cpToken ++ ['/', 'x']

/-- A concrete url without the substring cross-platform. -/
def urlPlain : Str := ['u', '/', 'p', 'l', 'a', 'i', 'n']

/-- Proof helper: the sum of the word counts of a piece list (the total the
running count of `create_chunks` accumulates while no flush happens). -/
def sumWC (ps : List Str) : Nat :=
  (ps.map wordCount).sum

/-- Proof helper: the text accumulated by the append branch of
`create_chunks`, each piece followed by a newline. -/
def glueAll (ps : List Str) : Str :=
  (ps.map (fun p => p ++ ['\n'])).flatten

/-! ## Concrete evaluations: the scenario of C6 and the counterexamples -/

set_option maxRecDepth 1000000

/-- Claim C6: for an input markdown document of three level-2 sections of
350, 180 and 120 words, with thresholds 300/500/200, the splitter returns
exactly two chunks, the first equal (up to whitespace) to section 1 and the
second equal to sections 2 and 3 concatenated.  Word-for-word equality is
stated through `wordsOf`. -/
theorem c6_concrete_scenario :
    (obtainTextSnippets docC6).map wordsOf = [wordsOf secA, wordsOf (secB ++ secC)] ∧
    (obtainTextSnippets docC6).map wordCount = [350, 300] := by
  decide

/-- Claim C1 is false as stated: the document of two level-2 sections of
350 and 250 words yields a second chunk of 250 words, below `min_words`,
although that chunk was not merged into its predecessor (both output chunks
are word-for-word the two sections) and is not an oversized paragraph
(250 ≤ `max_words`). -/
theorem c1_counterexample :
    (obtainTextSnippets docC1).map wordsOf = [wordsOf sec1C1, wordsOf sec2C1] ∧
    (obtainTextSnippets docC1).map wordCount = [350, 250] ∧
    250 < 300 ∧ 250 ≤ 500 := by
  decide

/-- Claim C2 is false as stated: on `docC2` the budget rule restarts a chunk
from a stripped piece whose next piece is a heading line, so the last word
of the piece and the heading marker are concatenated into one token; the
input has 653 words but the output chunks together have only 652, hence the
concatenation of the chunks is not the input up to whitespace. -/
theorem c2_counterexample :
    ((obtainTextSnippets docC2).map wordsOf).flatten.length = 652 ∧
    (wordsOf docC2).length = 653 ∧
    ((obtainTextSnippets docC2).map wordsOf).flatten ≠ wordsOf docC2 := by
  refine ⟨by decide, by decide, fun h => ?_⟩
  have h652 : ((obtainTextSnippets docC2).map wordsOf).flatten.length = 652 := by decide
  have h653 : (wordsOf docC2).length = 653 := by decide
  rw [h] at h652
  omega

/-- Claim C3 is false as stated: `docC3` reaches the paragraph fallback
(its single level-2 chunk has 561 words and no level-3 or level-4 headings),
and its middle paragraph is an indented level-2 heading line, which the
heading test of `create_chunks` matches after stripping while the running
count is 350 ≥ `min_words`; the heading-triggered flush fires there, so the
output differs from the spec's heading-free paragraph grouping. -/
theorem c3_counterexample :
    (obtainTextSnippets docC3).map wordCount = [350, 211] ∧
    (obtainTextSnippetsNoHeadPara docC3).map wordCount = [352, 209] ∧
    obtainTextSnippets docC3 ≠ obtainTextSnippetsNoHeadPara docC3 := by
  refine ⟨by decide, by decide, fun h => ?_⟩
  have h1 : (obtainTextSnippets docC3).map wordCount = [350, 211] := by decide
  have h2 : (obtainTextSnippetsNoHeadPara docC3).map wordCount = [352, 209] := by decide
  rw [h, h2] at h1
  simp at h1

/-- Claim C4 is false as stated: `docC4` contains no heading markers (no
line of it is a heading line at level 2, 3 or 4) and has 800 ≥
`min_final_words` words, yet the splitter returns two chunks, because the
800-word single chunk is re-split at its blank line by the paragraph
fallback. -/
theorem c4_counterexample :
    ((splitNl docC4).all (fun l =>
        !(isHeadingLine h2 l || isHeadingLine h3 l || isHeadingLine h4 l))) = true ∧
    200 ≤ wordCount docC4 ∧
    (obtainTextSnippets docC4).length = 2 := by
  decide

/-- Claim C5 is false as stated: the empty document has word count 0 <
`min_final_words` but the splitter returns no chunk at all (a whitespace-only
remainder is dropped), not exactly one. -/
theorem c5_counterexample :
    wordCount ([] : Str) < 200 ∧ (obtainTextSnippets []).length = 0 := by
  decide

/-- Claim C9 is false as stated: `formatKeywords` performs no
deduplication, so the supplied terms ARM, arm, Install serialize to
three entries, the first two identical, instead of a single entry for the
two terms differing only in case. -/
theorem c9_counterexample :
    splitTwo ',' ' ' (formatKeywords [kwARM, kwarm, kwInstall]) =
      [kwarm, kwarm, ['i', 'n', 's', 't', 'a', 'l', 'l']] ∧
    ¬ (splitTwo ',' ' ' (formatKeywords [kwARM, kwarm, kwInstall])).Nodup := by
  decide

/-! ## Word-splitting lemmas -/

theorem wordsOf_cons_ws (c : Char) (s : Str) (h : pyWS c = true) :
    wordsOf (c :: s) = wordsOf s := by
  simp [wordsOf, wordsGo, h]

theorem wordsGo_acc (s : Str) : ∀ acc : Str, acc ≠ [] →
    wordsGo acc s =
      (acc.reverse ++ s.takeWhile (fun d => !pyWS d))
        :: wordsOf (s.dropWhile (fun d => !pyWS d)) := by
  induction s with
  | nil => intro acc h; simp [wordsGo, h, wordsOf]
  | cons c s ih =>
    intro acc h
    by_cases hc : pyWS c = true
    · rw [show wordsGo acc (c :: s) = acc.reverse :: wordsGo [] s by
        simp [wordsGo, hc, h]]
      have h2 : wordsGo [] (c :: s) = wordsGo [] s := by simp [wordsGo, hc]
      simp [List.takeWhile_cons, List.dropWhile_cons, hc, wordsOf, h2]
    · rw [show wordsGo acc (c :: s) = wordsGo (c :: acc) s by
        simp [wordsGo, hc]]
      rw [ih (c :: acc) (by simp)]
      simp [List.takeWhile_cons, List.dropWhile_cons, hc]

theorem wordsOf_cons_not_ws (c : Char) (s : Str) (h : pyWS c = false) :
    wordsOf (c :: s) =
      (c :: s.takeWhile (fun d => !pyWS d))
        :: wordsOf (s.dropWhile (fun d => !pyWS d)) := by
  rw [show wordsOf (c :: s) = wordsGo [c] s by simp [wordsOf, wordsGo, h]]
  rw [wordsGo_acc s [c] (by simp)]
  simp

theorem dropWhile_nil_forall {α : Type} (p : α → Bool) :
    ∀ l : List α, l.dropWhile p = [] → ∀ x ∈ l, p x = true := by
  intro l
  induction l with
  | nil => simp
  | cons a l ih =>
    intro h x hx
    by_cases ha : p a = true
    · rw [List.dropWhile_cons, if_pos ha] at h
      rcases List.mem_cons.mp hx with rfl | hx
      · exact ha
      · exact ih h x hx
    · rw [List.dropWhile_cons, if_neg ha] at h
      simp at h

theorem takeWhile_nil_dropWhile {α : Type} (p : α → Bool) (l : List α)
    (h : l.takeWhile p = []) : l.dropWhile p = l := by
  cases l with
  | nil => rfl
  | cons a l =>
    rw [List.takeWhile_cons] at h
    by_cases ha : p a = true
    · rw [if_pos ha] at h; simp at h
    · rw [List.dropWhile_cons, if_neg ha]

theorem takeWhile_all (p : Char → Bool) (l : Str) (h : l.dropWhile p = []) :
    l.takeWhile p = l := by
  have := List.takeWhile_append_dropWhile (p := p) (l := l)
  rw [h, List.append_nil] at this
  exact this

theorem wordsOf_append_cases : ∀ a b : Str,
    wordsOf (a ++ b) = wordsOf a ++ wordsOf b ∨
    (∃ xs x y ys, wordsOf a = xs ++ [x] ∧ wordsOf b = y :: ys ∧
      wordsOf (a ++ b) = xs ++ (x ++ y) :: ys ∧
      (∃ d, a.getLast? = some d ∧ pyWS d = false) ∧
      (∃ e, b.head? = some e ∧ pyWS e = false))
  | [], b => Or.inl (by simp [wordsOf, wordsGo])
  | c :: a', b => by
    by_cases hc : pyWS c = true
    · rw [show ((c :: a') ++ b) = c :: (a' ++ b) from rfl, wordsOf_cons_ws _ _ hc,
        wordsOf_cons_ws _ _ hc]
      rcases wordsOf_append_cases a' b with h | ⟨xs, x, y, ys, h1, h2, h3, ⟨d, hd1, hd2⟩, he⟩
      · exact Or.inl h
      · refine Or.inr ⟨xs, x, y, ys, h1, h2, h3, ⟨d, ?_, hd2⟩, he⟩
        have ha' : a' ≠ [] := by
          intro hnil
          rw [hnil] at h1
          simp [wordsOf, wordsGo] at h1
        obtain ⟨u, L, rfl⟩ := List.exists_cons_of_ne_nil ha'
        rw [List.getLast?_cons_cons]
        exact hd1
    · replace hc : pyWS c = false := eq_false_of_ne_true hc
      rw [show ((c :: a') ++ b) = c :: (a' ++ b) from rfl,
        wordsOf_cons_not_ws _ _ hc, wordsOf_cons_not_ws _ _ hc]
      by_cases hd : a'.dropWhile (fun d => !pyWS d) = []
      · have htw : a'.takeWhile (fun d => !pyWS d) = a' := takeWhile_all _ _ hd
        have htwa : (a' ++ b).takeWhile (fun d => !pyWS d)
            = a' ++ b.takeWhile (fun d => !pyWS d) := by
          rw [List.takeWhile_append, htw]
          simp
        have hdwa : (a' ++ b).dropWhile (fun d => !pyWS d)
            = b.dropWhile (fun d => !pyWS d) := by
          rw [List.dropWhile_append, hd]
          simp
        rw [htwa, hdwa, htw, hd]
        by_cases htb : b.takeWhile (fun d => !pyWS d) = []
        · left
          have hdb : b.dropWhile (fun d => !pyWS d) = b := takeWhile_nil_dropWhile _ _ htb
          rw [htb, hdb]
          simp [wordsOf, wordsGo]
        · obtain ⟨e, b', rfl⟩ : ∃ e b', b = e :: b' := by
            cases b with
            | nil => simp [List.takeWhile] at htb
            | cons e b' => exact ⟨e, b', rfl⟩
          have he : pyWS e = false := by
            by_cases hee : pyWS e = true
            · rw [List.takeWhile_cons] at htb
              simp [hee] at htb
            · simpa using hee
          right
          refine ⟨[], c :: a', e :: b'.takeWhile (fun d => !pyWS d),
            wordsOf (b'.dropWhile (fun d => !pyWS d)), by simp [wordsOf, wordsGo],
            wordsOf_cons_not_ws e b' he, ?_, ?_, ⟨e, rfl, he⟩⟩
          · rw [List.takeWhile_cons, List.dropWhile_cons]
            simp [he]
          · refine ⟨(c :: a').getLast (by simp), List.getLast?_eq_getLast _ _, ?_⟩
            have hmem := List.getLast_mem (l := c :: a') (by simp)
            rcases List.mem_cons.mp hmem with heq | hmem'
            · rw [heq]; exact hc
            · have := dropWhile_nil_forall _ a' hd _ hmem'
              simpa using this
      · have htwa : (a' ++ b).takeWhile (fun d => !pyWS d)
            = a'.takeWhile (fun d => !pyWS d) := by
          rw [List.takeWhile_append]
          have hne : (a'.takeWhile (fun d => !pyWS d)).length ≠ a'.length := by
            intro hlen
            have hsum := congrArg List.length (List.takeWhile_append_dropWhile
              (fun d => !pyWS d) a')
            rw [List.length_append, hlen] at hsum
            have : (a'.dropWhile (fun d => !pyWS d)).length = 0 := by omega
            exact hd (List.length_eq_zero.mp this)
          simp [hne]
        have hdwa : (a' ++ b).dropWhile (fun d => !pyWS d)
            = a'.dropWhile (fun d => !pyWS d) ++ b := by
          rw [List.dropWhile_append]
          simp [List.isEmpty_iff, hd]
        rw [htwa, hdwa]
        rcases wordsOf_append_cases (a'.dropWhile (fun d => !pyWS d)) b with
          h | ⟨xs, x, y, ys, h1, h2, h3, ⟨d, hd1, hd2⟩, he⟩
        · left
          rw [h]
          simp
        · right
          refine ⟨(c :: a'.takeWhile (fun d => !pyWS d)) :: xs, x, y, ys, ?_, h2, ?_,
            ⟨d, ?_, hd2⟩, he⟩
          · rw [h1]
            simp
          · rw [h3]
            simp
          · have hsplit : c :: a'
                = (c :: a'.takeWhile (fun d => !pyWS d)) ++ a'.dropWhile (fun d => !pyWS d) := by
              simp [List.takeWhile_append_dropWhile]
            rw [hsplit, List.getLast?_append, hd1]
            rfl
termination_by a _ => a.length
decreasing_by
  · simp [Nat.lt_succ_of_le]
  · exact Nat.lt_succ_of_le (List.dropWhile_sublist _).length_le

theorem wordsOf_append_right_ws (a b : Str) (e : Char) (hb : b.head? = some e)
    (he : pyWS e = true) : wordsOf (a ++ b) = wordsOf a ++ wordsOf b := by
  rcases wordsOf_append_cases a b with h | ⟨_, _, _, _, _, _, _, _, ⟨f, hf1, hf2⟩⟩
  · exact h
  · rw [hb] at hf1
    injection hf1 with hf1
    rw [← hf1, he] at hf2
    simp at hf2

theorem wordsOf_append_left_ws (a b : Str) (d : Char) (ha : a.getLast? = some d)
    (hd : pyWS d = true) : wordsOf (a ++ b) = wordsOf a ++ wordsOf b := by
  rcases wordsOf_append_cases a b with h | ⟨_, _, _, _, _, _, _, ⟨f, hf1, hf2⟩, _⟩
  · exact h
  · rw [ha] at hf1
    injection hf1 with hf1
    rw [← hf1, hd] at hf2
    simp at hf2

theorem wordsOf_append_cons_ws (a : Str) (c : Char) (b : Str) (hc : pyWS c = true) :
    wordsOf (a ++ c :: b) = wordsOf a ++ wordsOf b := by
  rw [wordsOf_append_right_ws a (c :: b) c rfl hc, wordsOf_cons_ws _ _ hc]

theorem wordsOf_append_nl (a : Str) : wordsOf (a ++ ['\n']) = wordsOf a := by
  rw [wordsOf_append_cons_ws a '\n' [] (by decide)]
  simp [wordsOf, wordsGo]

theorem wordsOf_all_ws (s : Str) (h : ∀ c ∈ s, pyWS c = true) : wordsOf s = [] := by
  induction s with
  | nil => rfl
  | cons c s ih =>
    rw [wordsOf_cons_ws _ _ (h c (by simp))]
    exact ih (fun d hd => h d (by simp [hd]))

theorem dropWhile_ws_words (s : Str) : wordsOf (s.dropWhile pyWS) = wordsOf s := by
  induction s with
  | nil => rfl
  | cons c s ih =>
    by_cases hc : pyWS c = true
    · rw [List.dropWhile_cons, if_pos hc, ih, wordsOf_cons_ws _ _ hc]
    · rw [List.dropWhile_cons, if_neg hc]

theorem pyStrip_split (s : Str) :
    s.dropWhile pyWS
      = pyStrip s ++ (List.takeWhile pyWS (s.dropWhile pyWS).reverse).reverse := by
  unfold pyStrip
  conv_lhs => rw [← List.reverse_reverse (s.dropWhile pyWS)]
  conv_lhs =>
    rw [← List.takeWhile_append_dropWhile (p := pyWS)
      (l := (s.dropWhile pyWS).reverse)]
  rw [List.reverse_append]

theorem pyStrip_words (s : Str) : wordsOf (pyStrip s) = wordsOf s := by
  have hw : ∀ c ∈ (List.takeWhile pyWS (s.dropWhile pyWS).reverse).reverse,
      pyWS c = true := by
    intro c hcmem
    rw [List.mem_reverse] at hcmem
    exact List.mem_takeWhile_imp hcmem
  have h2 : wordsOf (pyStrip s
      ++ (List.takeWhile pyWS (s.dropWhile pyWS).reverse).reverse)
      = wordsOf (pyStrip s) := by
    cases hwn : (List.takeWhile pyWS (s.dropWhile pyWS).reverse).reverse with
    | nil => simp
    | cons e w' =>
      rw [wordsOf_append_right_ws (pyStrip s) (e :: w') e rfl
        (hw e (by rw [hwn]; simp))]
      rw [show wordsOf (e :: w') = [] from
        wordsOf_all_ws _ (fun d hd => hw d (by rw [hwn]; exact hd))]
      simp
  rw [← dropWhile_ws_words s, pyStrip_split s, h2]

theorem wordCount_strip (s : Str) : wordCount (pyStrip s) = wordCount s := by
  unfold wordCount
  rw [pyStrip_words]

theorem pyStrip_nil_words (s : Str) (h : pyStrip s = []) : wordsOf s = [] := by
  rw [← pyStrip_words s, h]
  rfl

theorem wordCount_append_le (a b : Str) :
    wordCount (a ++ b) ≤ wordCount a + wordCount b := by
  rcases wordsOf_append_cases a b with h | ⟨xs, x, y, ys, h1, h2, h3, _, _⟩
  · unfold wordCount
    rw [h, List.length_append]
  · unfold wordCount
    rw [h1, h2, h3]
    simp only [List.length_append, List.length_cons]
    omega

theorem wordCount_append_ge (a b : Str) :
    wordCount a + wordCount b ≤ wordCount (a ++ b) + 1 := by
  rcases wordsOf_append_cases a b with h | ⟨xs, x, y, ys, h1, h2, h3, _, _⟩
  · unfold wordCount
    rw [h, List.length_append]
    omega
  · unfold wordCount
    rw [h1, h2, h3]
    simp
    omega

theorem wordCount_append_ge_left (a b : Str) :
    wordCount a ≤ wordCount (a ++ b) := by
  rcases wordsOf_append_cases a b with h | ⟨xs, x, y, ys, h1, h2, h3, _, _⟩
  · unfold wordCount
    rw [h, List.length_append]
    omega
  · unfold wordCount
    rw [h1, h3]
    simp

/-! ## Splitting and rejoining lemmas -/

theorem intercalate_nil_pieces (sep : Str) :
    List.intercalate sep ([] : List Str) = [] := by
  simp [List.intercalate]

theorem intercalate_single (sep a : Str) : List.intercalate sep [a] = a := by
  simp [List.intercalate]

theorem intercalate_cons2 (sep a b : Str) (l : List Str) :
    List.intercalate sep (a :: b :: l) = a ++ sep ++ List.intercalate sep (b :: l) := by
  simp [List.intercalate, List.intersperse]

theorem intercalate_cons_ne (sep a : Str) (l : List Str) (h : l ≠ []) :
    List.intercalate sep (a :: l) = a ++ sep ++ List.intercalate sep l := by
  obtain ⟨b, l', rfl⟩ := List.exists_cons_of_ne_nil h
  exact intercalate_cons2 sep a b l'

theorem intercalate_append_pieces (sep : Str) (A B : List Str) (hA : A ≠ [])
    (hB : B ≠ []) :
    List.intercalate sep (A ++ B)
      = List.intercalate sep A ++ sep ++ List.intercalate sep B := by
  induction A with
  | nil => exact absurd rfl hA
  | cons a A' ih =>
    cases A' with
    | nil =>
      rw [List.cons_append, List.nil_append, intercalate_cons_ne sep a B hB,
        intercalate_single]
    | cons a2 A'' =>
      rw [List.cons_append, intercalate_cons_ne sep a _ (by simp),
        intercalate_cons2 sep a a2 A'', ih (by simp)]
      simp [List.append_assoc]

theorem consHead_ne_nil (c : Char) (L : List Str) : consHead c L ≠ [] := by
  cases L <;> simp [consHead]

theorem intercalate_consHead (sep : Str) (c : Char) (L : List Str) (h : L ≠ []) :
    List.intercalate sep (consHead c L) = c :: List.intercalate sep L := by
  obtain ⟨p, ps, rfl⟩ := List.exists_cons_of_ne_nil h
  cases ps with
  | nil => simp [consHead, intercalate_single]
  | cons q qs => simp [consHead, intercalate_cons2]

theorem splitNl_ne_nil (s : Str) : splitNl s ≠ [] := by
  cases s with
  | nil => simp [splitNl]
  | cons c rest =>
    by_cases hc : c = '\n'
    · simp [splitNl, hc]
    · simp [splitNl, hc, consHead_ne_nil]

theorem splitNl_reconstruct (s : Str) : List.intercalate nl (splitNl s) = s := by
  induction s with
  | nil => simp [splitNl, intercalate_single]
  | cons c rest ih =>
    by_cases hc : c = '\n'
    · rw [show splitNl (c :: rest) = [] :: splitNl rest by simp [splitNl, hc]]
      rw [intercalate_cons_ne nl [] _ (splitNl_ne_nil rest), ih]
      simp [nl, hc]
    · rw [show splitNl (c :: rest) = consHead c (splitNl rest) by simp [splitNl, hc]]
      rw [intercalate_consHead nl c _ (splitNl_ne_nil rest), ih]

theorem splitTwo_ne_nil (x y : Char) (s : Str) : splitTwo x y s ≠ [] := by
  match s with
  | [] => simp [splitTwo]
  | [c] => simp [splitTwo]
  | c :: d :: rest =>
    by_cases h : c = x ∧ d = y
    · simp [splitTwo, h]
    · simp only [splitTwo, if_neg h]
      exact consHead_ne_nil _ _

theorem splitTwo_reconstruct (x y : Char) : ∀ s : Str,
    List.intercalate [x, y] (splitTwo x y s) = s
  | [] => by simp [splitTwo, intercalate_single]
  | [c] => by simp [splitTwo, intercalate_single]
  | c :: d :: rest => by
    by_cases h : c = x ∧ d = y
    · rw [show splitTwo x y (c :: d :: rest) = [] :: splitTwo x y rest by
        simp [splitTwo, h]]
      rw [intercalate_cons_ne _ _ _ (splitTwo_ne_nil x y rest),
        splitTwo_reconstruct x y rest]
      simp [h.1, h.2]
    · rw [show splitTwo x y (c :: d :: rest) = consHead c (splitTwo x y (d :: rest)) by
        simp [splitTwo, h]]
      rw [intercalate_consHead _ _ _ (splitTwo_ne_nil x y (d :: rest)),
        splitTwo_reconstruct x y (d :: rest)]

theorem wordsOf_intercalate_nn (L : List Str) :
    wordsOf (List.intercalate ['\n', '\n'] L) = (L.map wordsOf).flatten := by
  induction L with
  | nil => simp [intercalate_nil_pieces, wordsOf, wordsGo]
  | cons a l ih =>
    cases l with
    | nil => simp [intercalate_single]
    | cons b l' =>
      rw [intercalate_cons2, List.append_assoc]
      have hx : (['\n', '\n'] : Str) ++ List.intercalate ['\n', '\n'] (b :: l')
          = '\n' :: '\n' :: List.intercalate ['\n', '\n'] (b :: l') := rfl
      rw [hx, wordsOf_append_cons_ws a '\n' _ (by decide),
        wordsOf_cons_ws _ _ (by decide), ih]
      simp

theorem splitTwo_nn_words (s : Str) :
    ((splitTwo '\n' '\n' s).map wordsOf).flatten = wordsOf s := by
  conv_rhs => rw [← splitTwo_reconstruct '\n' '\n' s]
  rw [wordsOf_intercalate_nn]

theorem wordsOf_inter_split (A : List Str) (l : Str) (ls : List Str) (hA : A ≠ []) :
    wordsOf (List.intercalate nl (A ++ l :: ls))
      = wordsOf (List.intercalate nl A) ++ wordsOf l
        ++ wordsOf (List.intercalate nl ([] :: ls)) := by
  rw [intercalate_append_pieces nl A (l :: ls) hA (by simp), List.append_assoc]
  have hx : (nl : Str) ++ List.intercalate nl (l :: ls)
      = '\n' :: List.intercalate nl (l :: ls) := rfl
  rw [hx, wordsOf_append_cons_ws _ '\n' _ (by decide)]
  cases ls with
  | nil =>
    rw [intercalate_single, intercalate_single]
    simp [wordsOf, wordsGo]
  | cons m ms =>
    rw [intercalate_cons2 nl l m ms, List.append_assoc]
    have hy : (nl : Str) ++ List.intercalate nl (m :: ms)
        = '\n' :: List.intercalate nl (m :: ms) := rfl
    rw [hy, wordsOf_append_cons_ws l '\n' _ (by decide)]
    rw [intercalate_cons_ne nl [] (m :: ms) (by simp), List.nil_append, hy,
      wordsOf_cons_ws _ _ (by decide)]
    simp [List.append_assoc]

theorem sbhL_words (lvl : Str) : ∀ (ls : List Str) (cur : List Str), cur ≠ [] →
    ((sbhL lvl cur ls).map wordsOf).flatten
      = wordsOf (List.intercalate nl (cur.reverse ++ ls)) := by
  intro ls
  induction ls with
  | nil =>
    intro cur hc
    simp [sbhL]
  | cons l ls ih =>
    intro cur hc
    by_cases hl : isHeadingLine lvl l = true
    · rw [show sbhL lvl cur (l :: ls)
          = (List.intercalate nl cur.reverse ++ ['\n']) :: l :: sbhL lvl [[]] ls from by
        simp [sbhL, hl]]
      simp only [List.map_cons, List.flatten_cons]
      rw [ih [[]] (by simp), wordsOf_append_nl,
        wordsOf_inter_split cur.reverse l ls (by simp [hc])]
      simp [List.append_assoc]
    · rw [show sbhL lvl cur (l :: ls) = sbhL lvl (l :: cur) ls from by simp [sbhL, hl]]
      rw [ih (l :: cur) (by simp)]
      simp [List.append_assoc]

theorem sbh_words (lvl : Str) (c : Str) :
    ((sbh lvl c).map wordsOf).flatten = wordsOf c := by
  obtain ⟨l0, ls, hs⟩ := List.exists_cons_of_ne_nil (splitNl_ne_nil c)
  rw [show sbh lvl c = sbhL lvl [l0] ls from by simp [sbh, hs]]
  rw [sbhL_words lvl ls [l0] (by simp)]
  have h1 : ([l0] : List Str).reverse ++ ls = l0 :: ls := by simp
  rw [h1, ← hs, splitNl_reconstruct]

theorem sumWC_eq (ps : List Str) : sumWC ps = ((ps.map wordsOf).flatten).length := by
  simp only [sumWC, List.length_flatten, List.map_map]
  rfl

theorem sumWC_sbh (lvl c : Str) : sumWC (sbh lvl c) = wordCount c := by
  rw [sumWC_eq, sbh_words]
  rfl

theorem sumWC_splitTwo_nn (s : Str) : sumWC (splitTwo '\n' '\n' s) = wordCount s := by
  rw [sumWC_eq, splitTwo_nn_words]
  rfl

/-! ## The merge relation and word preservation of the grouping loop -/

theorem Merges.refl_self : ∀ l : List Str, Merges l l
  | [] => Merges.nil
  | w :: l => by
    have h := Merges.grp [w] (by simp) (Merges.refl_self l)
    simpa using h

theorem Merges.append_m {a b c d : List Str} (h1 : Merges a b) (h2 : Merges c d) :
    Merges (a ++ c) (b ++ d) := by
  induction h1 with
  | nil => simpa using h2
  | grp g hg m ih =>
    simp only [List.cons_append, List.append_assoc]
    exact Merges.grp g hg ih

theorem Merges.flatten_eq {a b : List Str} (h : Merges a b) :
    a.flatten = b.flatten := by
  induction h with
  | nil => rfl
  | grp g hg m ih => simp [ih]

theorem Merges.ne_nil {a b : List Str} (h : Merges a b) (ha : a ≠ []) : b ≠ [] := by
  cases h with
  | nil => exact absurd rfl ha
  | grp g hg m =>
    simp [hg]

theorem Merges.collapse {g i : List Str} (h : Merges g i) (hg : g ≠ []) :
    Merges [g.flatten] i := by
  have hi : i ≠ [] := h.ne_nil hg
  have h2 := Merges.grp i hi Merges.nil
  rw [h.flatten_eq]
  simpa using h2

theorem Merges.split_append : ∀ (g ys inp : List Str), Merges (g ++ ys) inp →
    ∃ i1 i2, inp = i1 ++ i2 ∧ Merges g i1 ∧ Merges ys i2 := by
  intro g
  induction g with
  | nil =>
    intro ys inp h
    exact ⟨[], inp, by simp, Merges.nil, by simpa using h⟩
  | cons w g' ih =>
    intro ys inp h
    rw [List.cons_append] at h
    cases h with
    | grp g1 hg1 m =>
      obtain ⟨i1, i2, rfl, hg', hys⟩ := ih ys _ m
      exact ⟨g1 ++ i1, i2, by simp [List.append_assoc], Merges.grp g1 hg1 hg', hys⟩

theorem Merges.trans_m {a b c : List Str} (h1 : Merges a b) (h2 : Merges b c) :
    Merges a c := by
  induction h1 generalizing c with
  | nil =>
    cases h2
    exact Merges.nil
  | grp g hg m ih =>
    obtain ⟨i1, i2, rfl, hgi, hyi⟩ := Merges.split_append g _ _ h2
    have := Merges.append_m (Merges.collapse hgi hg) (ih hyi)
    simpa using this

theorem merges_wordsOf_append (a b : Str) :
    Merges (wordsOf (a ++ b)) (wordsOf a ++ wordsOf b) := by
  rcases wordsOf_append_cases a b with h | ⟨xs, x, y, ys, h1, h2, h3, _, _⟩
  · rw [h]
    exact Merges.refl_self _
  · rw [h1, h2, h3]
    have hm := Merges.grp [x, y] (by simp) (Merges.refl_self ys)
    have h4 := Merges.append_m (Merges.refl_self xs) hm
    simpa [List.append_assoc] using h4

theorem merges_flatMap (l : List Str) (f : Str → List Str)
    (h : ∀ t ∈ l, Merges (((f t).map wordsOf).flatten) (wordsOf t)) :
    Merges (((l.flatMap f).map wordsOf).flatten) ((l.map wordsOf).flatten) := by
  induction l with
  | nil => exact Merges.nil
  | cons t l ih =>
    simp only [List.flatMap_cons, List.map_append, List.flatten_append,
      List.map_cons, List.flatten_cons]
    exact Merges.append_m (h t (by simp)) (ih fun u hu => h u (by simp [hu]))

theorem pyStrip_nil : pyStrip [] = [] := rfl

theorem appendToLast_words (z : Str) : ∀ L : List Str, L ≠ [] →
    ((appendToLast L ('\n' :: z)).map wordsOf).flatten
      = (L.map wordsOf).flatten ++ wordsOf z
  | [], h => absurd rfl h
  | [a], _ => by
    simp [appendToLast, wordsOf_append_cons_ws a '\n' z (by decide)]
  | a :: b :: rest, _ => by
    rw [show appendToLast (a :: b :: rest) ('\n' :: z)
        = a :: appendToLast (b :: rest) ('\n' :: z) from rfl]
    simp only [List.map_cons, List.flatten_cons]
    rw [appendToLast_words z (b :: rest) (by simp)]
    simp [List.append_assoc]



theorem ccAux_cons (lvl : Str) (minW maxW minF : Nat) (p : Str) (ps chunks : List Str)
    (cur : Str) (cnt : Nat) :
    ccAux lvl minW maxW minF (p :: ps) chunks cur cnt =
      if isHeadPiece lvl p = true ∧ minW ≤ cnt then
        if maxW < 0 + wordCount p ∧ minW ≤ 0 then
          ccAux lvl minW maxW minF ps ((chunks ++ [pyStrip cur]) ++ [pyStrip []])
            (pyStrip p) (wordCount p)
        else
          ccAux lvl minW maxW minF ps (chunks ++ [pyStrip cur]) ([] ++ p ++ ['\n'])
            (0 + wordCount p)
      else
        if maxW < cnt + wordCount p ∧ minW ≤ cnt then
          ccAux lvl minW maxW minF ps (chunks ++ [pyStrip cur]) (pyStrip p) (wordCount p)
        else
          ccAux lvl minW maxW minF ps chunks (cur ++ p ++ ['\n']) (cnt + wordCount p) := by
  rw [show ccAux lvl minW maxW minF (p :: ps) chunks cur cnt
      = (fun st1 : List Str × Str × Nat =>
          if maxW < st1.2.2 + wordCount p ∧ minW ≤ st1.2.2 then
            ccAux lvl minW maxW minF ps (st1.1 ++ [pyStrip st1.2.1]) (pyStrip p)
              (wordCount p)
          else
            ccAux lvl minW maxW minF ps st1.1 (st1.2.1 ++ p ++ ['\n'])
              (st1.2.2 + wordCount p))
        (if isHeadPiece lvl p = true ∧ minW ≤ cnt
          then (chunks ++ [pyStrip cur], [], 0) else (chunks, cur, cnt)) from rfl]
  by_cases hh : isHeadPiece lvl p = true ∧ minW ≤ cnt
  · rw [if_pos hh, if_pos hh]
  · rw [if_neg hh, if_neg hh]

theorem ccAux_words (lvl : Str) (minW maxW minF : Nat) :
    ∀ (ps chunks : List Str) (cur : Str) (cnt : Nat),
    Merges (((ccAux lvl minW maxW minF ps chunks cur cnt).map wordsOf).flatten)
      ((chunks.map wordsOf).flatten ++ wordsOf cur ++ (ps.map wordsOf).flatten) := by
  intro ps
  induction ps with
  | nil =>
    intro chunks cur cnt
    rw [show ccAux lvl minW maxW minF [] chunks cur cnt
        = ccFinal minF chunks cur cnt from rfl]
    unfold ccFinal
    split_ifs with h1 h2
    · have hw : wordsOf cur = [] := pyStrip_nil_words cur h1
      rw [hw]
      simp only [List.map_nil, List.flatten_nil, List.append_nil]
      exact Merges.refl_self _
    · rw [appendToLast_words (pyStrip cur) chunks h2.2, pyStrip_words]
      simp only [List.map_nil, List.flatten_nil, List.append_nil]
      exact Merges.refl_self _
    · simp only [List.map_append, List.flatten_append, List.map_cons, List.map_nil,
        List.flatten_cons, List.flatten_nil, List.append_nil, pyStrip_words]
      exact Merges.refl_self _
  | cons p ps ih =>
    intro chunks cur cnt
    rw [ccAux_cons]
    by_cases hh : isHeadPiece lvl p = true ∧ minW ≤ cnt
    · rw [if_pos hh]
      by_cases hb : maxW < (0 : Nat) + wordCount p ∧ minW ≤ (0 : Nat)
      · rw [if_pos hb]
        have h5 := ih ((chunks ++ [pyStrip cur]) ++ [pyStrip []]) (pyStrip p)
          (wordCount p)
        simp only [pyStrip_nil, List.map_append, List.flatten_append, List.map_cons,
          List.map_nil, List.flatten_cons, List.flatten_nil, List.append_nil,
          pyStrip_words, List.append_assoc] at h5 ⊢
        rw [show wordsOf ([] : Str) = [] from rfl] at h5
        simpa using h5
      · rw [if_neg hb]
        have h5 := ih (chunks ++ [pyStrip cur]) ([] ++ p ++ ['\n']) (0 + wordCount p)
        rw [List.nil_append, wordsOf_append_nl] at h5
        simp only [List.map_append, List.flatten_append, List.map_cons, List.map_nil,
          List.flatten_cons, List.flatten_nil, List.append_nil, pyStrip_words,
          List.append_assoc] at h5 ⊢
        exact h5
    · rw [if_neg hh]
      by_cases hb : maxW < cnt + wordCount p ∧ minW ≤ cnt
      · rw [if_pos hb]
        have h5 := ih (chunks ++ [pyStrip cur]) (pyStrip p) (wordCount p)
        simp only [List.map_append, List.flatten_append, List.map_cons, List.map_nil,
          List.flatten_cons, List.flatten_nil, List.append_nil, pyStrip_words,
          List.append_assoc] at h5 ⊢
        exact h5
      · rw [if_neg hb]
        have h5 := ih chunks (cur ++ p ++ ['\n']) (cnt + wordCount p)
        have hglue : Merges (wordsOf (cur ++ p ++ ['\n']))
            (wordsOf cur ++ wordsOf p) := by
          rw [List.append_assoc]
          have hba := merges_wordsOf_append cur (p ++ ['\n'])
          rwa [wordsOf_append_nl] at hba
        have hmid := Merges.append_m
          (Merges.append_m (Merges.refl_self ((chunks.map wordsOf).flatten)) hglue)
          (Merges.refl_self ((ps.map wordsOf).flatten))
        have h6 := Merges.trans_m h5 hmid
        simpa [List.append_assoc] using h6

theorem createChunks_words (ps : List Str) (lvl : Str) (minW maxW minF : Nat) :
    Merges (((createChunks ps lvl minW maxW minF).map wordsOf).flatten)
      ((ps.map wordsOf).flatten) := by
  have h := ccAux_words lvl minW maxW minF ps [] [] 0
  rw [show wordsOf ([] : Str) = [] from rfl] at h
  simpa [createChunks] using h

theorem merges_level (t : Str) (lvl : Str) (minW maxW minF : Nat) :
    Merges (((createChunks (sbh lvl t) lvl minW maxW minF).map wordsOf).flatten)
      (wordsOf t) := by
  have h := createChunks_words (sbh lvl t) lvl minW maxW minF
  rwa [sbh_words] at h

theorem merges_para (t : Str) (minW maxW minF : Nat) :
    Merges (((createChunks (splitTwo '\n' '\n' t) h2 minW maxW minF).map
      wordsOf).flatten) (wordsOf t) := by
  have h := createChunks_words (splitTwo '\n' '\n' t) h2 minW maxW minF
  rwa [splitTwo_nn_words] at h

/-- Claim C2, amended: the ordered concatenation of the words of the output
chunks is obtained from the word sequence of the input by joining zero or
more groups of consecutive words into single tokens; no word is dropped,
duplicated, or reordered.  Joins do occur: the counterexample exhibits one
where the budget rule restarts a chunk from a stripped piece directly
followed by a heading piece. -/
theorem c2_amended_word_merges (content : Str) (minW maxW minF : Nat) :
    Merges (((obtainTextSnippets content minW maxW minF).map wordsOf).flatten)
      (wordsOf content) := by
  rw [show obtainTextSnippets content minW maxW minF
      = (createChunks (sbh h2 content) h2 minW maxW minF).flatMap (fun chunk =>
          if maxW < wordCount chunk then
            (createChunks (sbh h3 chunk) h3 minW maxW minF).flatMap (fun sub =>
              if maxW < wordCount sub then
                (createChunks (sbh h4 sub) h4 minW maxW minF).flatMap (fun ss =>
                  if maxW < wordCount ss then
                    createChunks (splitTwo '\n' '\n' ss) h2 minW maxW minF
                  else [ss])
              else [sub])
          else [chunk]) from rfl]
  refine Merges.trans_m (merges_flatMap _ _ ?_) (merges_level content h2 minW maxW minF)
  intro t ht
  by_cases hc1 : maxW < wordCount t
  · rw [if_pos hc1]
    refine Merges.trans_m (merges_flatMap _ _ ?_) (merges_level t h3 minW maxW minF)
    intro s hs
    by_cases hc2 : maxW < wordCount s
    · rw [if_pos hc2]
      refine Merges.trans_m (merges_flatMap _ _ ?_) (merges_level s h4 minW maxW minF)
      intro u hu
      by_cases hc3 : maxW < wordCount u
      · rw [if_pos hc3]
        exact merges_para u minW maxW minF
      · rw [if_neg hc3]
        simp only [List.map_cons, List.map_nil, List.flatten_cons, List.flatten_nil,
          List.append_nil]
        exact Merges.refl_self _
    · rw [if_neg hc2]
      simp only [List.map_cons, List.map_nil, List.flatten_cons, List.flatten_nil,
        List.append_nil]
      exact Merges.refl_self _
  · rw [if_neg hc1]
    simp only [List.map_cons, List.map_nil, List.flatten_cons, List.flatten_nil,
      List.append_nil]
    exact Merges.refl_self _

/-! ## Word-count bounds of the grouping loop -/

theorem sumWC_nil : sumWC [] = 0 := rfl

theorem sumWC_cons (p : Str) (ps : List Str) :
    sumWC (p :: ps) = wordCount p + sumWC ps := by
  simp [sumWC]

theorem appendToLast_mem (x : Str) : ∀ (L : List Str) (d : Str),
    d ∈ appendToLast L x → d ∈ L ∨ ∃ a ∈ L, d = a ++ x
  | [], d, hd => by simp [appendToLast] at hd
  | [a], d, hd => by
    simp [appendToLast] at hd
    exact Or.inr ⟨a, by simp, hd⟩
  | a :: b :: rest, d, hd => by
    rw [show appendToLast (a :: b :: rest) x = a :: appendToLast (b :: rest) x
      from rfl] at hd
    rcases List.mem_cons.mp hd with rfl | hd'
    · exact Or.inl (by simp)
    · rcases appendToLast_mem x (b :: rest) d hd' with h | ⟨e, he, rfl⟩
      · exact Or.inl (by simp [h])
      · exact Or.inr ⟨e, by simp [he], rfl⟩

theorem getLast?_append_nl (x : Str) : (x ++ ['\n']).getLast? = some '\n' := by
  rw [List.getLast?_append]
  rfl

theorem wordCount_glue_exact_nil (p : Str) :
    wordCount (([] : Str) ++ p ++ ['\n']) = wordCount p := by
  rw [List.nil_append]
  unfold wordCount
  rw [wordsOf_append_nl]

theorem wordCount_glue_exact_left (cur p : Str) (h : cur.getLast? = some '\n') :
    wordCount (cur ++ p ++ ['\n']) = wordCount cur + wordCount p := by
  rw [List.append_assoc]
  unfold wordCount
  rw [wordsOf_append_left_ws cur (p ++ ['\n']) '\n' h (by decide), List.length_append,
    wordsOf_append_nl]

theorem wordCount_glue_le (cur p : Str) :
    wordCount (cur ++ p ++ ['\n']) ≤ wordCount cur + wordCount p := by
  rw [List.append_assoc]
  have h := wordCount_append_le cur (p ++ ['\n'])
  have h2 : wordCount (p ++ ['\n']) = wordCount p := by
    unfold wordCount
    rw [wordsOf_append_nl]
  omega

theorem wordCount_glue_ge (cur p : Str) :
    wordCount cur + wordCount p ≤ wordCount (cur ++ p ++ ['\n']) + 1 := by
  rw [List.append_assoc]
  have h := wordCount_append_ge cur (p ++ ['\n'])
  have h2 : wordCount (p ++ ['\n']) = wordCount p := by
    unfold wordCount
    rw [wordsOf_append_nl]
  omega

theorem ccAux_lower (lvl : Str) : ∀ (ps chunks : List Str) (cur : Str) (cnt : Nat),
    (∀ d ∈ chunks, 299 ≤ wordCount d) →
    (cnt = wordCount cur ∨ (cur.getLast? = some '\n' ∧ cnt = wordCount cur + 1)) →
    (chunks = [] → (cnt = wordCount cur ∧ (cur = [] ∨ cur.getLast? = some '\n'))) →
    ∀ d ∈ ccAux lvl 300 500 200 ps chunks cur cnt,
      199 ≤ wordCount d ∨ (chunks = [] ∧ wordCount d = cnt + sumWC ps) := by
  intro ps
  induction ps with
  | nil =>
    intro chunks cur cnt hch hP hQ d hd
    rw [show ccAux lvl 300 500 200 [] chunks cur cnt
        = ccFinal 200 chunks cur cnt from rfl] at hd
    unfold ccFinal at hd
    split_ifs at hd with hs hm
    · exact Or.inl (by have := hch d hd; omega)
    · rcases appendToLast_mem _ chunks d hd with hdm | ⟨a, ha, rfl⟩
      · exact Or.inl (by have := hch d hdm; omega)
      · have h1 := hch a ha
        have h2 := wordCount_append_ge_left a ('\n' :: pyStrip cur)
        exact Or.inl (by omega)
    · rcases List.mem_append.mp hd with hdm | hdm
      · exact Or.inl (by have := hch d hdm; omega)
      · have hdq : d = pyStrip cur := by simpa using hdm
        subst hdq
        rw [wordCount_strip]
        cases hcc : chunks with
        | nil =>
          have hq := hQ hcc
          exact Or.inr ⟨rfl, by rw [sumWC_nil]; omega⟩
        | cons e es =>
          have hcnt : 200 ≤ cnt := by
            by_contra hlt
            exact hm ⟨by omega, by simp [hcc]⟩
          rcases hP with hP | ⟨_, hP⟩
          · exact Or.inl (by omega)
          · exact Or.inl (by omega)
  | cons p ps ih =>
    intro chunks cur cnt hch hP hQ d hd
    rw [ccAux_cons] at hd
    by_cases hh : isHeadPiece lvl p = true ∧ 300 ≤ cnt
    · rw [if_pos hh] at hd
      by_cases hb : (500 : Nat) < 0 + wordCount p ∧ (300 : Nat) ≤ 0
      · exact absurd hb.2 (by omega)
      · rw [if_neg hb] at hd
        have hch' : ∀ e ∈ chunks ++ [pyStrip cur], 299 ≤ wordCount e := by
          intro e he
          rcases List.mem_append.mp he with he | he
          · exact hch e he
          · have heq : e = pyStrip cur := by simpa using he
            subst heq
            rw [wordCount_strip]
            rcases hP with hP | ⟨_, hP⟩ <;> omega
        have hP' : 0 + wordCount p = wordCount ([] ++ p ++ ['\n'])
            ∨ (([] ++ p ++ ['\n']).getLast? = some '\n'
              ∧ 0 + wordCount p = wordCount ([] ++ p ++ ['\n']) + 1) := by
          left
          rw [wordCount_glue_exact_nil]
          omega
        rcases ih (chunks ++ [pyStrip cur]) ([] ++ p ++ ['\n']) (0 + wordCount p)
          hch' hP' (by simp) d hd with h | ⟨habs, _⟩
        · exact Or.inl h
        · exact absurd habs (by simp)
    · rw [if_neg hh] at hd
      by_cases hb : (500 : Nat) < cnt + wordCount p ∧ (300 : Nat) ≤ cnt
      · rw [if_pos hb] at hd
        have hch' : ∀ e ∈ chunks ++ [pyStrip cur], 299 ≤ wordCount e := by
          intro e he
          rcases List.mem_append.mp he with he | he
          · exact hch e he
          · have heq : e = pyStrip cur := by simpa using he
            subst heq
            rw [wordCount_strip]
            rcases hP with hP | ⟨_, hP⟩ <;> omega
        have hP' : wordCount p = wordCount (pyStrip p)
            ∨ ((pyStrip p).getLast? = some '\n'
              ∧ wordCount p = wordCount (pyStrip p) + 1) := by
          left
          rw [wordCount_strip]
        rcases ih (chunks ++ [pyStrip cur]) (pyStrip p) (wordCount p)
          hch' hP' (by simp) d hd with h | ⟨habs, _⟩
        · exact Or.inl h
        · exact absurd habs (by simp)
      · rw [if_neg hb] at hd
        have hP' : cnt + wordCount p = wordCount (cur ++ p ++ ['\n'])
            ∨ ((cur ++ p ++ ['\n']).getLast? = some '\n'
              ∧ cnt + wordCount p = wordCount (cur ++ p ++ ['\n']) + 1) := by
          rcases hP with hP | ⟨hlast, hP⟩
          · have hle := wordCount_glue_le cur p
            have hge := wordCount_glue_ge cur p
            by_cases hex : cnt + wordCount p = wordCount (cur ++ p ++ ['\n'])
            · exact Or.inl hex
            · refine Or.inr ⟨getLast?_append_nl (cur ++ p), ?_⟩
              omega
          · rw [wordCount_glue_exact_left cur p hlast]
            refine Or.inr ⟨getLast?_append_nl (cur ++ p), ?_⟩
            omega
        have hQ' : chunks = [] → (cnt + wordCount p = wordCount (cur ++ p ++ ['\n'])
            ∧ (cur ++ p ++ ['\n'] = [] ∨ (cur ++ p ++ ['\n']).getLast? = some '\n')) := by
          intro hcc
          obtain ⟨hq1, hq2⟩ := hQ hcc
          refine ⟨?_, Or.inr (getLast?_append_nl (cur ++ p))⟩
          rcases hq2 with rfl | hq2
          · rw [wordCount_glue_exact_nil]
            have : wordCount ([] : Str) = 0 := rfl
            omega
          · rw [wordCount_glue_exact_left cur p hq2]
            omega
        rcases ih chunks (cur ++ p ++ ['\n']) (cnt + wordCount p)
          hch hP' hQ' d hd with h | ⟨hcc, hw⟩
        · exact Or.inl h
        · refine Or.inr ⟨hcc, ?_⟩
          rw [sumWC_cons]
          omega

theorem createChunks_lower (ps : List Str) (lvl : Str) :
    ∀ d ∈ createChunks ps lvl 300 500 200,
      199 ≤ wordCount d ∨ wordCount d = sumWC ps := by
  intro d hd
  rcases ccAux_lower lvl ps [] [] 0 (by simp) (Or.inl rfl)
    (fun _ => ⟨rfl, Or.inl rfl⟩) d hd with h | ⟨_, hw⟩
  · exact Or.inl h
  · exact Or.inr (by simpa using hw)

/-- Claim C1, amended: with thresholds 300/500/200, every chunk of the
output has at least `min_final_words − 1 = 199` words provided the source
has at least `min_final_words` words (a trailing chunk emitted at the end of
a grouping pass may fall below `min_words` down to `min_final_words`, and a
word merge at a budget-rule restart can cost one more word), and every chunk
has at most `max_words` words unless it was emitted by the paragraph-level
fallback applied to an oversized block (such a chunk may exceed `max_words`
even when made of several paragraphs). -/
theorem c1_amended_bounds (content c : Str) (hc : c ∈ obtainTextSnippets content) :
    (200 ≤ wordCount content → 199 ≤ wordCount c) ∧
    (wordCount c ≤ 500 ∨ ∃ ss : Str, 500 < wordCount ss ∧
      c ∈ createChunks (splitTwo '\n' '\n' ss) h2 300 500 200) := by
  rw [show obtainTextSnippets content
      = (createChunks (sbh h2 content) h2 300 500 200).flatMap (fun chunk =>
          if 500 < wordCount chunk then
            (createChunks (sbh h3 chunk) h3 300 500 200).flatMap (fun sub =>
              if 500 < wordCount sub then
                (createChunks (sbh h4 sub) h4 300 500 200).flatMap (fun ss =>
                  if 500 < wordCount ss then
                    createChunks (splitTwo '\n' '\n' ss) h2 300 500 200
                  else [ss])
              else [sub])
          else [chunk]) from rfl] at hc
  obtain ⟨t, ht, hc1⟩ := List.mem_flatMap.mp hc
  by_cases h1 : 500 < wordCount t
  · rw [if_pos h1] at hc1
    obtain ⟨s, hs, hc2⟩ := List.mem_flatMap.mp hc1
    by_cases h2w : 500 < wordCount s
    · rw [if_pos h2w] at hc2
      obtain ⟨u, hu, hc3⟩ := List.mem_flatMap.mp hc2
      by_cases h3w : 500 < wordCount u
      · rw [if_pos h3w] at hc3
        refine ⟨fun _ => ?_, Or.inr ⟨u, h3w, hc3⟩⟩
        rcases createChunks_lower _ h2 c hc3 with h | h
        · exact h
        · rw [sumWC_splitTwo_nn] at h
          omega
      · rw [if_neg h3w] at hc3
        have hcu : c = u := by simpa using hc3
        subst hcu
        refine ⟨fun _ => ?_, Or.inl (by omega)⟩
        rcases createChunks_lower _ h4 c hu with h | h
        · exact h
        · rw [sumWC_sbh] at h
          omega
    · rw [if_neg h2w] at hc2
      have hcs : c = s := by simpa using hc2
      subst hcs
      refine ⟨fun _ => ?_, Or.inl (by omega)⟩
      rcases createChunks_lower _ h3 c hs with h | h
      · exact h
      · rw [sumWC_sbh] at h
        omega
  · rw [if_neg h1] at hc1
    have hct : c = t := by simpa using hc1
    subst hct
    refine ⟨fun hcont => ?_, Or.inl (by omega)⟩
    rcases createChunks_lower _ h2 c ht with h | h
    · exact h
    · rw [sumWC_sbh] at h
      omega

/-- Witness for the amended C1 at a concrete 250-word source. -/
theorem c1_amended_bounds_witness :
    pyStrip (repWords 250) ∈ obtainTextSnippets (repWords 250) ∧
    ((200 ≤ wordCount (repWords 250) → 199 ≤ wordCount (pyStrip (repWords 250))) ∧
      (wordCount (pyStrip (repWords 250)) ≤ 500 ∨ ∃ ss : Str, 500 < wordCount ss ∧
        pyStrip (repWords 250) ∈ createChunks (splitTwo '\n' '\n' ss) h2 300 500 200)) :=
  ⟨by decide, c1_amended_bounds (repWords 250) (pyStrip (repWords 250)) (by decide)⟩

/-! ## Degenerate runs of the grouping loop: no flush, single piece -/

theorem glueAll_nil : glueAll [] = [] := rfl

theorem glueAll_cons (p : Str) (ps : List Str) :
    glueAll (p :: ps) = (p ++ ['\n']) ++ glueAll ps := by
  simp [glueAll]

theorem wordsOf_glueAll : ∀ ps : List Str,
    wordsOf (glueAll ps) = (ps.map wordsOf).flatten
  | [] => rfl
  | p :: ps => by
    rw [glueAll_cons,
      wordsOf_append_left_ws (p ++ ['\n']) (glueAll ps) '\n' (getLast?_append_nl p)
        (by decide),
      wordsOf_append_nl, wordsOf_glueAll ps]
    simp

theorem ccAux_no_flush (lvl : Str) (minW maxW minF : Nat) :
    ∀ (ps chunks : List Str) (cur : Str) (cnt : Nat), cnt + sumWC ps < minW →
    ccAux lvl minW maxW minF ps chunks cur cnt
      = ccFinal minF chunks (cur ++ glueAll ps) (cnt + sumWC ps) := by
  intro ps
  induction ps with
  | nil =>
    intro chunks cur cnt h
    rw [show ccAux lvl minW maxW minF [] chunks cur cnt
      = ccFinal minF chunks cur cnt from rfl]
    rw [sumWC_nil, glueAll_nil]
    simp
  | cons p ps ih =>
    intro chunks cur cnt h
    rw [sumWC_cons] at h
    rw [ccAux_cons]
    have hcnt : ¬ (minW ≤ cnt) := by omega
    rw [if_neg (fun hx => hcnt hx.2), if_neg (fun hx => hcnt hx.2)]
    rw [ih chunks (cur ++ p ++ ['\n']) (cnt + wordCount p) (by omega)]
    have e1 : (cur ++ p ++ ['\n']) ++ glueAll ps = cur ++ glueAll (p :: ps) := by
      rw [glueAll_cons]
      simp [List.append_assoc]
    rw [e1, sumWC_cons, Nat.add_assoc]

theorem pyStrip_append_nl (s : Str) : pyStrip (s ++ ['\n']) = pyStrip s := by
  unfold pyStrip
  rw [List.dropWhile_append]
  by_cases he : (s.dropWhile pyWS).isEmpty = true
  · rw [if_pos he, List.isEmpty_iff.mp he]
    rfl
  · rw [if_neg he, List.reverse_append]
    rw [show (['\n'] : Str).reverse ++ (s.dropWhile pyWS).reverse
      = '\n' :: (s.dropWhile pyWS).reverse from rfl]
    rw [List.dropWhile_cons, if_pos (by decide)]

theorem pyStrip_ne_nil_of_words (t : Str) (h : 1 ≤ wordCount t) : pyStrip t ≠ [] := by
  intro hx
  have h2 := pyStrip_nil_words t hx
  unfold wordCount at h
  rw [h2] at h
  simp at h

theorem createChunks_single (t : Str) (lvl : Str) (hw : 1 ≤ wordCount t) :
    createChunks [t] lvl 300 500 200 = [pyStrip t] := by
  rw [show createChunks [t] lvl 300 500 200 = ccAux lvl 300 500 200 [t] [] [] 0
    from rfl]
  rw [ccAux_cons]
  rw [if_neg (fun hx : _ ∧ (300 : Nat) ≤ 0 => by omega),
    if_neg (fun hx : ((500 : Nat) < 0 + wordCount t ∧ (300 : Nat) ≤ 0) => by omega)]
  rw [show ccAux lvl 300 500 200 [] [] ([] ++ t ++ ['\n']) (0 + wordCount t)
    = ccFinal 200 [] ([] ++ t ++ ['\n']) (0 + wordCount t) from rfl]
  unfold ccFinal
  rw [List.nil_append, pyStrip_append_nl]
  rw [if_neg (pyStrip_ne_nil_of_words t hw),
    if_neg (fun hx : _ ∧ ([] : List Str) ≠ [] => hx.2 rfl)]
  rfl

theorem sbhL_no_head (lvl : Str) : ∀ (ls cur : List Str),
    (∀ l ∈ ls, isHeadingLine lvl l = false) →
    sbhL lvl cur ls = [List.intercalate nl (cur.reverse ++ ls)] := by
  intro ls
  induction ls with
  | nil =>
    intro cur _
    simp [sbhL]
  | cons l ls ih =>
    intro cur h
    rw [show sbhL lvl cur (l :: ls) = sbhL lvl (l :: cur) ls from by
      simp [sbhL, h l (by simp)]]
    rw [ih (l :: cur) (fun m hm => h m (by simp [hm]))]
    simp [List.append_assoc]

theorem sbh_no_head (lvl c : Str)
    (h : ∀ l ∈ splitNl c, isHeadingLine lvl l = false) : sbh lvl c = [c] := by
  obtain ⟨l0, ls, hs⟩ := List.exists_cons_of_ne_nil (splitNl_ne_nil c)
  rw [show sbh lvl c = sbhL lvl [l0] ls from by simp [sbh, hs]]
  rw [sbhL_no_head lvl ls [l0] (fun l hl => h l (by rw [hs]; simp [hl]))]
  have h1 : ([l0] : List Str).reverse ++ ls = l0 :: ls := by simp
  rw [h1, ← hs, splitNl_reconstruct]

/-- Claim C4, amended: a document with no heading markers whose word count
lies between `min_final_words` and `max_words` yields exactly one chunk,
equal to the document up to whitespace (without the upper bound the
paragraph-level fallback can re-split the single chunk, as the
counterexample shows). -/
theorem c4_amended (doc : Str)
    (hnh : ∀ l ∈ splitNl doc, isHeadingLine h2 l = false
      ∧ isHeadingLine h3 l = false ∧ isHeadingLine h4 l = false)
    (hlo : 200 ≤ wordCount doc) (hhi : wordCount doc ≤ 500) :
    obtainTextSnippets doc = [pyStrip doc] ∧ wordsOf (pyStrip doc) = wordsOf doc := by
  have hs2 : sbh h2 doc = [doc] := sbh_no_head h2 doc (fun l hl => (hnh l hl).1)
  have hone : createChunks (sbh h2 doc) h2 300 500 200 = [pyStrip doc] := by
    rw [hs2]
    exact createChunks_single doc h2 (by omega)
  refine ⟨?_, pyStrip_words doc⟩
  rw [show obtainTextSnippets doc
      = (createChunks (sbh h2 doc) h2 300 500 200).flatMap (fun chunk =>
          if 500 < wordCount chunk then
            (createChunks (sbh h3 chunk) h3 300 500 200).flatMap (fun sub =>
              if 500 < wordCount sub then
                (createChunks (sbh h4 sub) h4 300 500 200).flatMap (fun ss =>
                  if 500 < wordCount ss then
                    createChunks (splitTwo '\n' '\n' ss) h2 300 500 200
                  else [ss])
              else [sub])
          else [chunk]) from rfl, hone]
  simp only [List.flatMap_cons, List.flatMap_nil, List.append_nil]
  rw [if_neg (by rw [wordCount_strip]; omega)]

/-- Witness for the amended C4 at a concrete 300-word heading-free source. -/
theorem c4_amended_witness :
    (∀ l ∈ splitNl (repWords 300), isHeadingLine h2 l = false
      ∧ isHeadingLine h3 l = false ∧ isHeadingLine h4 l = false) ∧
    (obtainTextSnippets (repWords 300) = [pyStrip (repWords 300)]
      ∧ wordsOf (pyStrip (repWords 300)) = wordsOf (repWords 300)) :=
  ⟨by decide, c4_amended (repWords 300) (by decide) (by decide) (by decide)⟩

/-- Claim C5, amended: a document with at least one word and a word count
below `min_final_words` yields exactly one chunk regardless of heading
structure (the empty and whitespace-only documents yield no chunk, as the
counterexample shows). -/
theorem c5_amended (doc : Str) (hw1 : 1 ≤ wordCount doc)
    (hw2 : wordCount doc < 200) :
    (obtainTextSnippets doc).length = 1 := by
  have hsum : sumWC (sbh h2 doc) = wordCount doc := sumWC_sbh h2 doc
  have hnf := ccAux_no_flush h2 300 500 200 (sbh h2 doc) [] [] 0
    (by rw [hsum]; omega)
  have hwg : wordsOf (glueAll (sbh h2 doc)) = wordsOf doc := by
    rw [wordsOf_glueAll, sbh_words]
  have hwcg : wordCount (glueAll (sbh h2 doc)) = wordCount doc := by
    unfold wordCount
    rw [hwg]
  have hone : createChunks (sbh h2 doc) h2 300 500 200
      = [pyStrip (glueAll (sbh h2 doc))] := by
    rw [show createChunks (sbh h2 doc) h2 300 500 200
      = ccAux h2 300 500 200 (sbh h2 doc) [] [] 0 from rfl]
    rw [hnf]
    unfold ccFinal
    rw [List.nil_append]
    rw [if_neg (pyStrip_ne_nil_of_words _ (by omega)),
      if_neg (fun hx : _ ∧ ([] : List Str) ≠ [] => hx.2 rfl)]
    rfl
  rw [show obtainTextSnippets doc
      = (createChunks (sbh h2 doc) h2 300 500 200).flatMap (fun chunk =>
          if 500 < wordCount chunk then
            (createChunks (sbh h3 chunk) h3 300 500 200).flatMap (fun sub =>
              if 500 < wordCount sub then
                (createChunks (sbh h4 sub) h4 300 500 200).flatMap (fun ss =>
                  if 500 < wordCount ss then
                    createChunks (splitTwo '\n' '\n' ss) h2 300 500 200
                  else [ss])
              else [sub])
          else [chunk]) from rfl, hone]
  simp only [List.flatMap_cons, List.flatMap_nil, List.append_nil]
  rw [if_neg (by rw [wordCount_strip, hwcg]; omega)]
  rfl

/-- Witness for the amended C5 at a concrete 100-word source. -/
theorem c5_amended_witness :
    1 ≤ wordCount (repWords 100) ∧ wordCount (repWords 100) < 200 ∧
    (obtainTextSnippets (repWords 100)).length = 1 :=
  ⟨by decide, by decide, c5_amended (repWords 100) (by decide) (by decide)⟩

/-! ## The paragraph fallback versus heading-free grouping -/

theorem ccAux_eq_noHead (minW maxW minF : Nat) :
    ∀ (ps chunks : List Str) (cur : Str) (cnt : Nat),
    (∀ p ∈ ps, isHeadPiece h2 p = false) →
    ccAux h2 minW maxW minF ps chunks cur cnt
      = ccNoHeadAux minW maxW minF ps chunks cur cnt := by
  intro ps
  induction ps with
  | nil => intro chunks cur cnt _; rfl
  | cons p ps ih =>
    intro chunks cur cnt h
    rw [ccAux_cons]
    rw [if_neg (fun hx : isHeadPiece h2 p = true ∧ _ => by
      rw [h p (by simp)] at hx
      simp at hx)]
    rw [show ccNoHeadAux minW maxW minF (p :: ps) chunks cur cnt
        = if maxW < cnt + wordCount p ∧ minW ≤ cnt then
            ccNoHeadAux minW maxW minF ps (chunks ++ [pyStrip cur]) (pyStrip p)
              (wordCount p)
          else
            ccNoHeadAux minW maxW minF ps chunks (cur ++ p ++ ['\n'])
              (cnt + wordCount p) from rfl]
    by_cases hb : maxW < cnt + wordCount p ∧ minW ≤ cnt
    · rw [if_pos hb, if_pos hb, ih _ _ _ (fun q hq => h q (by simp [hq]))]
    · rw [if_neg hb, if_neg hb, ih _ _ _ (fun q hq => h q (by simp [hq]))]

/-- Claim C3, amended: the paragraph-level fallback reuses the grouping
algorithm with the default level-2 heading marker, so the heading-triggered
flush can fire for a paragraph whose stripped text begins with that marker
(see the counterexample); whenever no stripped piece of a piece list begins
with the level-2 marker, the grouping coincides with heading-free
grouping. -/
theorem c3_amended (ps : List Str) (minW maxW minF : Nat)
    (h : ∀ p ∈ ps, isHeadPiece h2 p = false) :
    createChunks ps h2 minW maxW minF = createChunksNoHead ps minW maxW minF :=
  ccAux_eq_noHead minW maxW minF ps [] [] 0 h

/-- Witness for the amended C3 on a concrete heading-free piece list. -/
theorem c3_amended_witness :
    (∀ p ∈ [repWords 5, repWords 3], isHeadPiece h2 p = false) ∧
    createChunks [repWords 5, repWords 3] h2 300 500 200
      = createChunksNoHead [repWords 5, repWords 3] 300 500 200 :=
  ⟨by decide, c3_amended [repWords 5, repWords 3] 300 500 200 (by decide)⟩

/-! ## Ledger semantics -/

theorem recordRows_found (url : Str) (cw : Nat) (cid : Str) (today : Str) :
    ∀ rs : List LedgerRow, recordRows url cw cid today rs true
      = rs.map (fun r => if r.url = url then addToExistingRow r cw cid else r)
  | [] => rfl
  | r :: rs => by
    by_cases hu : r.url = url
    · rw [show recordRows url cw cid today (r :: rs) true
        = addToExistingRow r cw cid :: recordRows url cw cid today rs true from by
          simp [recordRows, hu]]
      rw [recordRows_found url cw cid today rs]
      simp [hu]
    · rw [show recordRows url cw cid today (r :: rs) true
        = r :: recordRows url cw cid today rs true from by simp [recordRows, hu]]
      rw [recordRows_found url cw cid today rs]
      simp [hu]

theorem recordRows_notfound (url : Str) (cw : Nat) (cid : Str) (today : Str) :
    ∀ rs : List LedgerRow, recordRows url cw cid today rs false
      = if rs.any (fun r => decide (r.url = url)) then
          rs.map (fun r => if r.url = url then addToExistingRow r cw cid else r)
        else rs ++ [addNewRow url today cw cid]
  | [] => rfl
  | r :: rs => by
    by_cases hu : r.url = url
    · rw [show recordRows url cw cid today (r :: rs) false
        = addToExistingRow r cw cid :: recordRows url cw cid today rs true from by
          simp [recordRows, hu]]
      rw [recordRows_found url cw cid today rs]
      rw [if_pos (by simp [hu])]
      simp [hu]
    · rw [show recordRows url cw cid today (r :: rs) false
        = r :: recordRows url cw cid today rs false from by simp [recordRows, hu]]
      rw [recordRows_notfound url cw cid today rs]
      by_cases ha : rs.any (fun r => decide (r.url = url)) = true
      · rw [if_pos ha, if_pos (by simp [ha]), List.map_cons, if_neg hu]
      · rw [if_neg ha, if_neg (by simp [hu, ha])]
        simp

/-- Claim C7: a `record(url, chunk)` call replaces every row keyed by the
url with `[url, same date, words + chunk words, count + 1, ids ++ ", " ++
new id]`, appends the fresh row `[url, today, chunk words, 1, new id]` at
the very end when no row matched, keeps all other rows unchanged in their
original relative order, and keeps the header first. -/
theorem c7_record_semantics (t : LedgerTable) (url : Str) (cw : Nat) (cid : Str)
    (today : Str) :
    recordChunk t url cw cid today =
      ⟨t.header,
        if t.rows.any (fun r => decide (r.url = url)) then
          t.rows.map (fun r =>
            if r.url = url then
              ⟨url, r.date, r.words + cw, r.count + 1, r.ids ++ ',' :: ' ' :: cid⟩
            else r)
        else t.rows ++ [⟨url, today, cw, 1, cid⟩]⟩ := by
  unfold recordChunk
  congr 1
  rw [recordRows_notfound]
  by_cases ha : t.rows.any (fun r => decide (r.url = url)) = true
  · rw [if_pos ha, if_pos ha]
    apply List.map_congr_left
    intro r _
    by_cases hu : r.url = url
    · rw [if_pos hu, if_pos hu]
      simp [addToExistingRow, hu]
    · rw [if_neg hu, if_neg hu]
  · rw [if_neg ha, if_neg ha]
    rfl

/-! ## The deduplication gate -/

/-- Claim C8: a non-cross-platform url is always processed with no state
change; the first cross-platform call for a url appends it to the list and
processes it; every later cross-platform call for that url is rejected,
producing no chunks (and hence no ledger update). -/
theorem c8_dedup_gate {α : Type} (seen : List Str) (url : Str) (emit : Str → List α) :
    (isCrossPlatform url = false →
      processLearningPathGate seen url emit = (seen, emit url)) ∧
    (isCrossPlatform url = true → url ∉ seen →
      processLearningPathGate seen url emit = (seen ++ [url], emit url)) ∧
    (isCrossPlatform url = true → url ∈ seen →
      processLearningPathGate seen url emit = (seen, [])) := by
  refine ⟨?_, ?_, ?_⟩
  · intro h
    unfold processLearningPathGate
    rw [if_neg (by simp [h])]
  · intro h hmem
    unfold processLearningPathGate
    rw [if_pos h, if_neg hmem]
  · intro h hmem
    unfold processLearningPathGate
    rw [if_pos h, if_pos hmem]

/-- Witness for C8: a concrete cross-platform url admitted once, rejected
the second time, and a plain url admitted without state change. -/
theorem c8_dedup_gate_witness :
    processLearningPathGate ([] : List Str) urlCP (fun u => [u.length])
      = ([urlCP], [urlCP.length]) ∧
    processLearningPathGate [urlCP] urlCP (fun u => [u.length]) = ([urlCP], []) ∧
    processLearningPathGate ([] : List Str) urlPlain (fun u => [u.length])
      = ([], [urlPlain.length]) :=
  ⟨(c8_dedup_gate [] urlCP (fun u => [u.length])).2.1 (by decide) (by decide),
    (c8_dedup_gate [urlCP] urlCP (fun u => [u.length])).2.2 (by decide) (by decide),
    (c8_dedup_gate [] urlPlain (fun u => [u.length])).1 (by decide)⟩

/-! ## Counting ledger ids -/

theorem consHead_append (c : Char) (A B : List Str) (hA : A ≠ []) :
    consHead c (A ++ B) = consHead c A ++ B := by
  obtain ⟨a, A', rfl⟩ := List.exists_cons_of_ne_nil hA
  rfl

theorem splitTwo_no_comma : ∀ b : Str, ',' ∉ b → splitTwo ',' ' ' b = [b]
  | [], _ => rfl
  | [c], _ => rfl
  | c :: d :: rest, h => by
    have hc : ¬ (c = ',' ∧ d = ' ') := fun hx => h (by simp [hx.1])
    rw [show splitTwo ',' ' ' (c :: d :: rest)
      = consHead c (splitTwo ',' ' ' (d :: rest)) from by simp [splitTwo, hc]]
    rw [splitTwo_no_comma (d :: rest) (fun hx => h (by simp [List.mem_cons.mp hx]))]
    rfl

theorem splitTwo_append_sep : ∀ a b : Str,
    splitTwo ',' ' ' (a ++ ',' :: ' ' :: b) = splitTwo ',' ' ' a ++ splitTwo ',' ' ' b
  | [], b => by
    rw [List.nil_append]
    rw [show splitTwo ',' ' ' (',' :: ' ' :: b) = [] :: splitTwo ',' ' ' b from by
      simp [splitTwo]]
    rfl
  | [c], b => by
    rw [show ([c] : Str) ++ ',' :: ' ' :: b = c :: ',' :: (' ' :: b) from rfl]
    rw [show splitTwo ',' ' ' (c :: ',' :: (' ' :: b))
      = consHead c (splitTwo ',' ' ' (',' :: (' ' :: b))) from by
        simp [splitTwo]]
    rw [show splitTwo ',' ' ' (',' :: ' ' :: b) = [] :: splitTwo ',' ' ' b from by
      simp [splitTwo]]
    rfl
  | c :: d :: rest, b => by
    rw [show (c :: d :: rest) ++ ',' :: ' ' :: b
      = c :: d :: (rest ++ ',' :: ' ' :: b) from rfl]
    by_cases hcd : c = ',' ∧ d = ' '
    · rw [show splitTwo ',' ' ' (c :: d :: (rest ++ ',' :: ' ' :: b))
        = [] :: splitTwo ',' ' ' (rest ++ ',' :: ' ' :: b) from by simp [splitTwo, hcd]]
      rw [show splitTwo ',' ' ' (c :: d :: rest) = [] :: splitTwo ',' ' ' rest from by
        simp [splitTwo, hcd]]
      rw [splitTwo_append_sep rest b]
      rfl
    · rw [show splitTwo ',' ' ' (c :: d :: (rest ++ ',' :: ' ' :: b))
        = consHead c (splitTwo ',' ' ' (d :: (rest ++ ',' :: ' ' :: b))) from by
          simp [splitTwo, hcd]]
      rw [show (d :: (rest ++ ',' :: ' ' :: b)) = (d :: rest) ++ ',' :: ' ' :: b
        from rfl]
      rw [splitTwo_append_sep (d :: rest) b]
      rw [consHead_append c _ _ (splitTwo_ne_nil ',' ' ' (d :: rest))]
      rw [show splitTwo ',' ' ' (c :: d :: rest)
        = consHead c (splitTwo ',' ' ' (d :: rest)) from by simp [splitTwo, hcd]]

theorem countIds_append (a b : Str) :
    countIds (a ++ ',' :: ' ' :: b) = countIds a + countIds b := by
  unfold countIds
  rw [splitTwo_append_sep, List.length_append]

theorem countIds_single (b : Str) (h : ',' ∉ b) : countIds b = 1 := by
  unfold countIds
  rw [splitTwo_no_comma b h]
  rfl

/-- Claim C10: if the chunk id contains no comma and every row of the table
satisfies the invariant that the chunk-count column equals the number of
comma-separated ids in the chunk-ids column, then after a `record` call
every row of the new table still satisfies it: the fresh row starts with
one id and count 1, the updated rows gain one id and one count, and the
other rows are untouched. -/
theorem c10_count_invariant (t : LedgerTable) (url : Str) (cw : Nat) (cid : Str)
    (today : Str) (hcid : ',' ∉ cid)
    (hrows : ∀ r ∈ t.rows, countIds r.ids = r.count) :
    ∀ r ∈ (recordChunk t url cw cid today).rows, countIds r.ids = r.count := by
  intro r hr
  rw [show (recordChunk t url cw cid today).rows
    = recordRows url cw cid today t.rows false from rfl] at hr
  rw [recordRows_notfound] at hr
  by_cases ha : t.rows.any (fun r => decide (r.url = url)) = true
  · rw [if_pos ha] at hr
    obtain ⟨r0, hr0, hrq⟩ := List.mem_map.mp hr
    by_cases hu : r0.url = url
    · rw [if_pos hu] at hrq
      subst hrq
      rw [show (addToExistingRow r0 cw cid).ids = r0.ids ++ ',' :: ' ' :: cid from rfl,
        show (addToExistingRow r0 cw cid).count = r0.count + 1 from rfl]
      rw [countIds_append, countIds_single cid hcid, hrows r0 hr0]
    · rw [if_neg hu] at hrq
      subst hrq
      exact hrows r0 hr0
  · rw [if_neg ha] at hr
    rcases List.mem_append.mp hr with hr | hr
    · exact hrows r hr
    · have hq : r = addNewRow url today cw cid := by simpa using hr
      subst hq
      rw [show (addNewRow url today cw cid).ids = cid from rfl,
        show (addNewRow url today cw cid).count = 1 from rfl]
      exact countIds_single cid hcid

/-- Witness for C10: updating a concrete one-row table. -/
theorem c10_count_invariant_witness :
    countIds (addToExistingRow (⟨urlPlain, [], 5, 1, kwarm⟩ : LedgerRow) 3 kwInstall).ids
      = (addToExistingRow (⟨urlPlain, [], 5, 1, kwarm⟩ : LedgerRow) 3 kwInstall).count :=
  c10_count_invariant ⟨[], [⟨urlPlain, [], 5, 1, kwarm⟩]⟩ urlPlain 3 kwInstall []
    (by decide) (by decide) _ (by decide)

/-! ## Keyword serialization -/

theorem pyLower_append (a b : Str) : pyLower (a ++ b) = pyLower a ++ pyLower b := by
  simp [pyLower]

theorem pyLower_intercalate (ks : List Str) :
    pyLower (List.intercalate [',', ' '] ks)
      = List.intercalate [',', ' '] (ks.map pyLower) := by
  induction ks with
  | nil => rfl
  | cons a l ih =>
    cases l with
    | nil =>
      rw [intercalate_single, List.map_cons, List.map_nil, intercalate_single]
    | cons b l' =>
      rw [intercalate_cons2, pyLower_append, pyLower_append, ih]
      rw [show List.map pyLower (a :: b :: l')
        = pyLower a :: pyLower b :: List.map pyLower l' from rfl]
      rw [intercalate_cons2 [',', ' '] (pyLower a) (pyLower b) (List.map pyLower l')]
      rw [show List.map pyLower (b :: l') = pyLower b :: List.map pyLower l' from rfl]
      rw [show pyLower [',', ' '] = ([',', ' '] : Str) from by decide]

theorem pyStrip_eq_self (s : Str) (hhead : ∀ c, s.head? = some c → pyWS c = false)
    (hlast : ∀ c, s.getLast? = some c → pyWS c = false) : pyStrip s = s := by
  have h1 : s.dropWhile pyWS = s := by
    cases s with
    | nil => rfl
    | cons c cs =>
      rw [List.dropWhile_cons, if_neg (by rw [hhead c rfl]; simp)]
  unfold pyStrip
  rw [h1]
  have h2 : s.reverse.dropWhile pyWS = s.reverse := by
    cases hsr : s.reverse with
    | nil => rfl
    | cons c cs =>
      have hlc : s.getLast? = some c := by
        rw [← List.head?_reverse, hsr]
        rfl
      rw [List.dropWhile_cons, if_neg (by rw [hlast c hlc]; simp)]
  rw [h2, List.reverse_reverse]

theorem head?_intercalate_sep (a : Str) (ks : List Str) (ha : a ≠ []) :
    (List.intercalate [',', ' '] (a :: ks)).head? = a.head? := by
  cases ks with
  | nil => rw [intercalate_single]
  | cons b l =>
    rw [intercalate_cons2, List.append_assoc, List.head?_append]
    obtain ⟨c, a', rfl⟩ := List.exists_cons_of_ne_nil ha
    rfl

theorem getLast?_intercalate_sep : ∀ (ks : List Str) (b : Str),
    ks.getLast? = some b → b ≠ [] →
    (List.intercalate [',', ' '] ks).getLast? = b.getLast?
  | [], b, hb, _ => by simp at hb
  | [a], b, hb, hbne => by
    rw [intercalate_single]
    have : a = b := by simpa using hb
    rw [this]
  | a :: a2 :: ks', b, hb, hbne => by
    rw [List.getLast?_cons_cons] at hb
    rw [intercalate_cons2, List.getLast?_append]
    rw [getLast?_intercalate_sep (a2 :: ks') b hb hbne,
      List.getLast?_eq_getLast b hbne]
    rfl

theorem splitTwo_intercalate : ∀ ks : List Str, (∀ k ∈ ks, ',' ∉ k) →
    splitTwo ',' ' ' (List.intercalate [',', ' '] ks) = ks ∨ ks = []
  | [], _ => Or.inr rfl
  | [a], h => by
    rw [intercalate_single]
    exact Or.inl (splitTwo_no_comma a (h a (by simp)))
  | a :: b :: ks', h => by
    left
    rw [intercalate_cons2, List.append_assoc]
    rw [show ([',', ' '] : Str) ++ List.intercalate [',', ' '] (b :: ks')
      = ',' :: ' ' :: List.intercalate [',', ' '] (b :: ks') from rfl]
    rw [splitTwo_append_sep]
    rcases splitTwo_intercalate (b :: ks') (fun k hk => h k (by simp [List.mem_cons.mp hk])) with
      hx | hx
    · rw [hx, splitTwo_no_comma a (h a (by simp))]
      rfl
    · simp at hx

/-- Claim C9, amended: the serialized keywords string is the comma-and-space
join of the supplied terms, each lowercased, in order, with no
deduplication: splitting the serialized string back at the separator
returns one entry per supplied term, so two terms differing only in case
yield two identical entries rather than one. -/
theorem c9_amended_entries (ks : List Str) (hne : ks ≠ [])
    (h : ∀ k ∈ ks, k ≠ [] ∧ ∀ c ∈ k, pyWS c = false ∧ c ≠ ','
      ∧ pyWS c.toLower = false ∧ c.toLower ≠ ',') :
    splitTwo ',' ' ' (formatKeywords ks) = ks.map pyLower := by
  have hmapne : ks.map pyLower ≠ [] := by
    intro hx
    exact hne (List.map_eq_nil_iff.mp hx)
  have hmem : ∀ k ∈ ks.map pyLower, k ≠ [] ∧ ∀ c ∈ k, pyWS c = false ∧ c ≠ ',' := by
    intro k hk
    obtain ⟨k0, hk0, rfl⟩ := List.mem_map.mp hk
    refine ⟨fun hx => ((h k0 hk0).1 (by simpa [pyLower] using hx)), ?_⟩
    intro c hc
    obtain ⟨c0, hc0, rfl⟩ := List.mem_map.mp hc
    exact ⟨((h k0 hk0).2 c0 hc0).2.2.1, ((h k0 hk0).2 c0 hc0).2.2.2⟩
  unfold formatKeywords
  rw [pyLower_intercalate]
  rw [pyStrip_eq_self _ ?hh ?hl]
  case hh =>
    intro c hc
    obtain ⟨k1, ks1, hks⟩ := List.exists_cons_of_ne_nil hmapne
    rw [hks, head?_intercalate_sep k1 ks1 (hmem k1 (by rw [hks]; simp)).1] at hc
    have hk1 := hmem k1 (by rw [hks]; simp)
    obtain ⟨d, k1', rfl⟩ := List.exists_cons_of_ne_nil hk1.1
    have hdc : d = c := by simpa using hc
    subst hdc
    exact (hk1.2 _ (by simp)).1
  case hl =>
    intro c hc
    have hlast := List.getLast?_eq_getLast (ks.map pyLower) hmapne
    have hmemlast := List.getLast_mem (l := ks.map pyLower) hmapne
    have hkl := hmem _ hmemlast
    rw [getLast?_intercalate_sep (ks.map pyLower) _ hlast hkl.1] at hc
    have hlast2 := List.getLast?_eq_getLast _ hkl.1
    rw [hlast2] at hc
    have hcm := List.getLast_mem (l := (ks.map pyLower).getLast hmapne) hkl.1
    have heq : ((ks.map pyLower).getLast hmapne).getLast hkl.1 = c := by
      simpa using hc
    subst heq
    exact (hkl.2 _ hcm).1
  rcases splitTwo_intercalate (ks.map pyLower) (fun k hk => fun hx =>
      ((hmem k hk).2 ',' hx).2 rfl) with hx | hx
  · exact hx
  · exact absurd hx hmapne

/-- Witness for the amended C9 on the keywords ARM, arm, Install. -/
theorem c9_amended_entries_witness :
    ([kwARM, kwarm, kwInstall] : List Str) ≠ [] ∧
    splitTwo ',' ' ' (formatKeywords [kwARM, kwarm, kwInstall])
      = ([kwARM, kwarm, kwInstall] : List Str).map pyLower :=
  ⟨by decide, c9_amended_entries [kwARM, kwarm, kwInstall] (by decide) (by decide)⟩
